import Mathlib

/-!
Verification of the two data-structure cores of the `bustub` buffer-manager
layer: the LRU-K frame replacer (`src/buffer/lru_k_replacer.cpp`) and the
extendible hash table (`src/container/hash/extendible_hash_table.cpp`).

The C++ sources are shallowly embedded below.  Doubly-linked `std::list`s
become Lean `List`s (with `emplace_front` as cons), the `unordered_map` from
key to list node is realised by searching the lists (keys are unique in every
reachable state), `std::shared_ptr<Bucket>` aliasing in the directory is
realised by a store of buckets addressed by index, and `BUSTUB_ASSERT` /
undefined behaviour is realised by returning `none`.  Machine integers are
modelled as `Nat`; the bit-masking helpers `GetLowKBit`/`TestKBit` become
`% 2 ^ k` and `Nat.testBit`.
-/

namespace Spec2Proof

/-! ### Generic list lemmas -/

/-- Update the first element satisfying the predicate, keeping every position
unchanged.  This models an in-place mutation of the unique list node returned
by an `unordered_map` lookup. -/
def updFirst (p : α → Bool) (f : α → α) : List α → List α
  | [] => []
  | a :: l => if p a then f a :: l else a :: updFirst p f l

theorem updFirst_append_of_forall (p : α → Bool) (f : α → α) (l₁ l₂ : List α)
    (h : ∀ x ∈ l₁, p x = false) (a : α) (ha : p a = true) :
    updFirst p f (l₁ ++ a :: l₂) = l₁ ++ f a :: l₂ := by
  induction l₁ with
  | nil => simp [updFirst, ha]
  | cons b l ih =>
    have hb : p b = false := h b (by simp)
    have ih' := ih (fun x hx => h x (List.mem_cons_of_mem _ hx))
    simp [updFirst, hb, ih']

theorem find?_split {p : α → Bool} {l : List α} {a : α} (h : l.find? p = some a) :
    ∃ l₁ l₂, l = l₁ ++ a :: l₂ ∧ (∀ x ∈ l₁, p x = false) ∧ p a = true := by
  induction l with
  | nil => simp at h
  | cons b l ih =>
    by_cases hb : p b = true
    · rw [List.find?_cons_of_pos _ hb] at h
      obtain rfl : b = a := by injection h
      exact ⟨[], l, rfl, by simp, hb⟩
    · have hb' : p b = false := by simpa using hb
      rw [List.find?_cons_of_neg _ hb] at h
      obtain ⟨l₁, l₂, rfl, h₁, h₂⟩ := ih h
      refine ⟨b :: l₁, l₂, rfl, ?_, h₂⟩
      intro x hx
      rcases List.mem_cons.mp hx with rfl | hx
      · exact hb'
      · exact h₁ x hx

theorem eraseP_append_of_forall (p : α → Bool) (l₁ l₂ : List α)
    (h : ∀ x ∈ l₁, p x = false) (a : α) (ha : p a = true) :
    (l₁ ++ a :: l₂).eraseP p = l₁ ++ l₂ := by
  induction l₁ with
  | nil => simp [List.eraseP_cons, ha]
  | cons b l ih =>
    have hb : p b = false := h b (by simp)
    have ih' := ih (fun x hx => h x (List.mem_cons_of_mem _ hx))
    simp [List.eraseP_cons, hb, ih']

/-! ### LRU-K replacer: data model

Source: `src/buffer/lru_k_replacer.cpp`.  A `FrameRecord` (the source's
`Entry`, declared in the header; field defaults modelled from the spec:
`access_count = 0` before the first increment, `evictable = false`,
`in_history = true`) lives in one of two lists, `history` and `cache`,
with the most recent insertion at the front. -/

structure Entry where
  key : Nat
  cnt : Nat
  evictable : Bool
  inHistory : Bool
deriving DecidableEq, Repr

structure RState where
  n : Nat
  k : Nat
  history : List Entry
  cache : List Entry
  currSize : Nat
deriving DecidableEq, Repr

namespace RState

/-- Fresh replacer: `LRUKReplacer(num_frames, k)` tracks nothing. -/
def init (n k : Nat) : RState := ⟨n, k, [], [], 0⟩

/-- Lookup in `map_`: the unique entry with the given key, searching both
lists (the map points at the list node holding the record). -/
def keyIs (fid : Nat) : Entry → Bool := fun e => e.key == fid

def findEntry (s : RState) (fid : Nat) : Option Entry :=
  match s.history.find? (keyIs fid) with
  | some e => some e
  | none => s.cache.find? (keyIs fid)

/-- Erase the (first) node with the given key, as `list.erase(iterator)`. -/
def eraseKey (l : List Entry) (fid : Nat) : List Entry :=
  l.eraseP (keyIs fid)

/-- IsFull: `curr_size_ >= replacer_size_`. -/
def isFull (s : RState) : Bool := s.n ≤ s.currSize

/-- Size: returns `curr_size_`. -/
def sizeR (s : RState) : Nat := s.currSize

/-- RecordAccess (source lines 47-79).  Asserts `frame_id < replacer_size_`
(modelled by `none`).  An untracked frame is dropped when the replacer is
full, otherwise a fresh record is pushed at the front of `history`; then the
shared path increments `cnt_` and, when `cnt_ >= k_`, splices the record to
the front of `cache` with `is_in_history_list_ = false`. -/
def recordAccess (s : RState) (fid : Nat) : Option RState :=
  if fid < s.n then some (
    match s.findEntry fid with
    | none =>
      if s.isFull then s
      else if 1 < s.k then
        { s with history := ⟨fid, 1, false, true⟩ :: s.history }
      else
        { s with cache := ⟨fid, 1, false, false⟩ :: s.cache }
    | some e =>
      let bump := updFirst (keyIs fid) (fun x => { x with cnt := x.cnt + 1 })
      if e.cnt + 1 < s.k then
        if e.inHistory then { s with history := bump s.history }
        else { s with cache := bump s.cache }
      else
        let e' : Entry := ⟨e.key, e.cnt + 1, e.evictable, false⟩
        if e.inHistory then
          { s with history := eraseKey s.history fid, cache := e' :: s.cache }
        else
          { s with cache := e' :: eraseKey s.cache fid })
  else none

/-- SetEvictable (source lines 81-96): no-op when untracked, otherwise adjust
`curr_size_` by the flag delta and overwrite the flag in place. -/
def setEvictable (s : RState) (fid : Nat) (b : Bool) : Option RState :=
  if fid < s.n then some (
    match s.findEntry fid with
    | none => s
    | some e =>
      let c := if e.evictable && !b then s.currSize - 1
               else if !e.evictable && b then s.currSize + 1
               else s.currSize
      let setf := updFirst (keyIs fid) (fun x => { x with evictable := b })
      if e.inHistory then
        { s with history := setf s.history, currSize := c }
      else
        { s with cache := setf s.cache, currSize := c })
  else none

/-- Remove (source lines 98-112): no-op when untracked; asserts the record is
evictable; erases it from the list selected by `is_in_history_list_`. -/
def removeFrame (s : RState) (fid : Nat) : Option RState :=
  if fid < s.n then
    match s.findEntry fid with
    | none => some s
    | some e =>
      if e.evictable then some (
        if e.inHistory then
          { s with history := eraseKey s.history fid, currSize := s.currSize - 1 }
        else
          { s with cache := eraseKey s.cache fid, currSize := s.currSize - 1 })
      else none
  else none

/-- Back-to-front scan of one list as performed by the `Evict` loops: the
input is the reversed list, the first evictable element is returned together
with the remaining (still reversed) list. -/
def scanEvict : List Entry → Option (Entry × List Entry)
  | [] => none
  | e :: rest =>
    if e.evictable then some (e, rest)
    else match scanEvict rest with
      | some (f, rest') => some (f, e :: rest')
      | none => none

/-- Evict (source lines 21-45): scan `history` back to front for an evictable
record, then `cache` back to front; on a hit erase the record and decrement
`curr_size_`. -/
def evict (s : RState) : Option (Nat × RState) :=
  match scanEvict s.history.reverse with
  | some (e, rest) =>
    some (e.key, { s with history := rest.reverse, currSize := s.currSize - 1 })
  | none =>
    match scanEvict s.cache.reverse with
    | some (e, rest) =>
      some (e.key, { s with cache := rest.reverse, currSize := s.currSize - 1 })
    | none => none

/-- States reachable from a fresh replacer by successful operations. -/
inductive Reachable : RState → Prop
  | init (n k : Nat) : Reachable (init n k)
  | access {s s' : RState} {f : Nat} :
      Reachable s → s.recordAccess f = some s' → Reachable s'
  | setEv {s s' : RState} {f : Nat} {b : Bool} :
      Reachable s → s.setEvictable f b = some s' → Reachable s'
  | remove {s s' : RState} {f : Nat} :
      Reachable s → s.removeFrame f = some s' → Reachable s'
  | evictStep {s s' : RState} {f : Nat} :
      Reachable s → s.evict = some (f, s') → Reachable s'

/-- Number of tracked records whose `evictable` flag is set. -/
def evictCount (s : RState) : Nat :=
  (s.history ++ s.cache).countP (fun e => e.evictable)

/-- Number of tracked records. -/
def tracked (s : RState) : Nat := s.history.length + s.cache.length

end RState

namespace RState

theorem keyIs_eq {fid : Nat} {e : Entry} (h : keyIs fid e = true) : e.key = fid := by
  simpa [keyIs] using h

/-- State invariant of the replacer, as maintained by the source: keys are
unique and valid, the two lists are segregated by `access_count` relative to
`k`, the `is_in_history_list_` flag is accurate, and `curr_size_` counts the
evictable records. -/
structure RInv (s : RState) : Prop where
  nodup : ((s.history ++ s.cache).map Entry.key).Nodup
  keyLt : ∀ e ∈ s.history ++ s.cache, e.key < s.n
  histFlag : ∀ e ∈ s.history, e.inHistory = true
  histCnt : ∀ e ∈ s.history, e.cnt < s.k
  cacheFlag : ∀ e ∈ s.cache, e.inHistory = false
  cacheCnt : ∀ e ∈ s.cache, s.k ≤ e.cnt
  sizeEq : s.currSize = s.evictCount

theorem findEntry_none {s : RState} {fid : Nat} (h : s.findEntry fid = none) :
    s.history.find? (keyIs fid) = none ∧ s.cache.find? (keyIs fid) = none := by
  unfold findEntry at h
  rcases hh : s.history.find? (keyIs fid) with _ | e
  · rw [hh] at h
    exact ⟨rfl, h⟩
  · rw [hh] at h
    simp at h

theorem findEntry_some {s : RState} {fid : Nat} {e : Entry}
    (h : s.findEntry fid = some e) :
    s.history.find? (keyIs fid) = some e ∨
      (s.history.find? (keyIs fid) = none ∧ s.cache.find? (keyIs fid) = some e) := by
  unfold findEntry at h
  rcases hh : s.history.find? (keyIs fid) with _ | f
  · rw [hh] at h
    exact Or.inr ⟨rfl, h⟩
  · rw [hh] at h
    simp at h
    subst h
    exact Or.inl rfl

theorem countP_middle (p : α → Bool) (l₁ l₂ : List α) (a : α) :
    (l₁ ++ a :: l₂).countP p =
      l₁.countP p + ((if p a then 1 else 0) + l₂.countP p) := by
  rw [List.countP_append, List.countP_cons]
  by_cases h : p a
  · simp [h]
    omega
  · simp [h]

theorem rinv_init (n k : Nat) : RInv (init n k) := by
  refine ⟨?_, ?_, ?_, ?_, ?_, ?_, ?_⟩
  all_goals simp [init, evictCount]

theorem nodup_shift (l₁ l₂ c : List Entry) (e e' : Entry) (hk : e'.key = e.key)
    (hnd : (((l₁ ++ e :: l₂) ++ c).map Entry.key).Nodup) :
    (((l₁ ++ l₂) ++ e' :: c).map Entry.key).Nodup := by
  refine List.Perm.nodup ?_ hnd
  simp only [List.map_append, List.map_cons, List.append_assoc, hk]
  exact List.Perm.append_left _ List.perm_middle.symm

theorem nodup_shift_front (hl c₁ c₂ : List Entry) (e e' : Entry) (hk : e'.key = e.key)
    (hnd : ((hl ++ (c₁ ++ e :: c₂)).map Entry.key).Nodup) :
    ((hl ++ e' :: (c₁ ++ c₂)).map Entry.key).Nodup := by
  refine List.Perm.nodup ?_ hnd
  simp only [List.map_append, List.map_cons, List.append_assoc, hk]
  exact List.Perm.append_left _ List.perm_middle

theorem count_shift (l₁ l₂ c : List Entry) (e e' : Entry) (hev : e'.evictable = e.evictable) :
    ((l₁ ++ l₂) ++ e' :: c).countP (fun x => x.evictable) =
      ((l₁ ++ e :: l₂) ++ c).countP (fun x => x.evictable) := by
  simp only [List.countP_append, List.countP_cons, hev]
  omega

theorem count_shift_front (hl c₁ c₂ : List Entry) (e e' : Entry)
    (hev : e'.evictable = e.evictable) :
    (hl ++ e' :: (c₁ ++ c₂)).countP (fun x => x.evictable) =
      (hl ++ (c₁ ++ e :: c₂)).countP (fun x => x.evictable) := by
  simp only [List.countP_append, List.countP_cons, hev]
  omega

theorem rinv_recordAccess {s s' : RState} {fid : Nat} (h : RInv s)
    (hs : s.recordAccess fid = some s') : RInv s' := by
  unfold recordAccess at hs
  by_cases hf : fid < s.n
  case neg => simp [hf] at hs
  rw [if_pos hf, Option.some.injEq] at hs
  rcases he : s.findEntry fid with _ | e
  · -- untracked frame
    rw [he] at hs
    obtain ⟨hh, hc⟩ := findEntry_none he
    have hhk : ∀ x ∈ s.history, x.key ≠ fid := by
      intro x hx
      have := List.find?_eq_none.mp hh x hx
      simpa [keyIs] using this
    have hck : ∀ x ∈ s.cache, x.key ≠ fid := by
      intro x hx
      have := List.find?_eq_none.mp hc x hx
      simpa [keyIs] using this
    have hnew : fid ∉ (s.history ++ s.cache).map Entry.key := by
      simp only [List.mem_map, List.mem_append]
      rintro ⟨x, hx | hx, hkey⟩
      · exact hhk x hx hkey
      · exact hck x hx hkey
    by_cases hfull : s.isFull
    · rw [if_pos hfull] at hs
      exact hs ▸ h
    · rw [if_neg hfull] at hs
      by_cases hk : 1 < s.k
      · rw [if_pos hk] at hs
        subst hs
        refine ⟨?_, ?_, ?_, ?_, ?_, ?_, ?_⟩
        · refine List.nodup_cons.mpr ⟨?_, h.nodup⟩
          simpa using hnew
        · intro x hx
          simp only [List.cons_append, List.mem_cons] at hx
          rcases hx with rfl | hx
          · exact hf
          · exact h.keyLt x hx
        · intro x hx
          rcases List.mem_cons.mp hx with rfl | hx
          · rfl
          · exact h.histFlag x hx
        · intro x hx
          rcases List.mem_cons.mp hx with rfl | hx
          · exact hk
          · exact h.histCnt x hx
        · exact h.cacheFlag
        · exact h.cacheCnt
        · have := h.sizeEq
          simp only [evictCount] at this ⊢
          simpa [List.countP_cons] using this
      · rw [if_neg hk] at hs
        subst hs
        refine ⟨?_, ?_, ?_, ?_, ?_, ?_, ?_⟩
        · refine List.Perm.nodup ?_ (List.nodup_cons.mpr ⟨by simpa using hnew, h.nodup⟩)
          simp only [List.map_cons, List.map_append]
          exact List.perm_middle.symm
        · intro x hx
          simp only [List.mem_append, List.mem_cons] at hx
          rcases hx with hx | rfl | hx
          · exact h.keyLt x (List.mem_append.mpr (Or.inl hx))
          · exact hf
          · exact h.keyLt x (List.mem_append.mpr (Or.inr hx))
        · exact h.histFlag
        · exact h.histCnt
        · intro x hx
          rcases List.mem_cons.mp hx with rfl | hx
          · rfl
          · exact h.cacheFlag x hx
        · intro x hx
          rcases List.mem_cons.mp hx with rfl | hx
          · simp only []
            omega
          · exact h.cacheCnt x hx
        · have := h.sizeEq
          simp only [evictCount] at this ⊢
          simpa [List.countP_append, List.countP_cons] using this
  · -- tracked frame
    rw [he] at hs
    rcases findEntry_some he with hh | ⟨hh, hc⟩
    · -- the record lives in the history list
      obtain ⟨h₁, h₂, hdec, hpre, hpe⟩ := find?_split hh
      have hkey : e.key = fid := keyIs_eq hpe
      have hmem : e ∈ s.history := hdec ▸ List.mem_append.mpr (Or.inr (by simp))
      have hflag : e.inHistory = true := h.histFlag e hmem
      have hcnt : e.cnt < s.k := h.histCnt e hmem
      dsimp only at hs
      rw [hflag] at hs
      by_cases hlt : e.cnt + 1 < s.k
      · rw [if_pos hlt, if_pos rfl] at hs
        rw [hdec, updFirst_append_of_forall _ _ _ _ hpre _ hpe] at hs
        subst hs
        refine ⟨?_, ?_, ?_, ?_, ?_, ?_, ?_⟩
        · have hnd := h.nodup
          rw [hdec] at hnd
          simpa using hnd
        · intro x hx
          simp only [List.mem_append, List.mem_cons] at hx
          have hL := h.keyLt
          rw [hdec] at hL
          rcases hx with (hx | rfl | hx) | hx
          · exact hL x (by simp [hx])
          · simpa using hL e (by simp)
          · exact hL x (by simp [hx])
          · exact hL x (by simp [hx])
        · intro x hx
          simp only [List.mem_append, List.mem_cons] at hx
          have hF := h.histFlag
          rw [hdec] at hF
          rcases hx with hx | rfl | hx
          · exact hF x (by simp [hx])
          · simpa using hflag
          · exact hF x (by simp [hx])
        · intro x hx
          simp only [List.mem_append, List.mem_cons] at hx
          have hC := h.histCnt
          rw [hdec] at hC
          rcases hx with hx | rfl | hx
          · exact hC x (by simp [hx])
          · simpa using hlt
          · exact hC x (by simp [hx])
        · exact h.cacheFlag
        · exact h.cacheCnt
        · have hse := h.sizeEq
          simp only [evictCount] at hse ⊢
          rw [hdec] at hse
          simpa [List.countP_append, List.countP_cons] using hse
      · rw [if_neg hlt, if_pos rfl] at hs
        rw [show eraseKey s.history fid = h₁ ++ h₂ from by
              rw [eraseKey, hdec, eraseP_append_of_forall _ _ _ hpre _ hpe]] at hs
        subst hs
        refine ⟨?_, ?_, ?_, ?_, ?_, ?_, ?_⟩
        · have hnd := h.nodup
          rw [hdec] at hnd
          exact nodup_shift h₁ h₂ s.cache e ⟨e.key, e.cnt + 1, e.evictable, false⟩ rfl hnd
        · intro x hx
          simp only [List.mem_append, List.mem_cons] at hx
          have hL := h.keyLt
          rw [hdec] at hL
          rcases hx with (hx | hx) | rfl | hx
          · exact hL x (by simp [hx])
          · exact hL x (by simp [hx])
          · simpa using hL e (by simp)
          · exact hL x (by simp [hx])
        · intro x hx
          simp only [List.mem_append] at hx
          have hF := h.histFlag
          rw [hdec] at hF
          rcases hx with hx | hx
          · exact hF x (by simp [hx])
          · exact hF x (by simp [hx])
        · intro x hx
          simp only [List.mem_append] at hx
          have hC := h.histCnt
          rw [hdec] at hC
          rcases hx with hx | hx
          · exact hC x (by simp [hx])
          · exact hC x (by simp [hx])
        · intro x hx
          rcases List.mem_cons.mp hx with rfl | hx
          · rfl
          · exact h.cacheFlag x hx
        · intro x hx
          rcases List.mem_cons.mp hx with rfl | hx
          · simp
            omega
          · exact h.cacheCnt x hx
        · have hse := h.sizeEq
          simp only [evictCount] at hse ⊢
          rw [hdec] at hse
          rw [count_shift h₁ h₂ s.cache e ⟨e.key, e.cnt + 1, e.evictable, false⟩ rfl]
          exact hse
    · -- the record lives in the cache list
      obtain ⟨c₁, c₂, hdec, hpre, hpe⟩ := find?_split hc
      have hkey : e.key = fid := keyIs_eq hpe
      have hmem : e ∈ s.cache := hdec ▸ List.mem_append.mpr (Or.inr (by simp))
      have hflag : e.inHistory = false := h.cacheFlag e hmem
      have hcnt : s.k ≤ e.cnt := h.cacheCnt e hmem
      have hlt : ¬ (e.cnt + 1 < s.k) := by omega
      dsimp only at hs
      rw [hflag] at hs
      rw [if_neg hlt] at hs
      simp only [Bool.false_eq_true, if_false] at hs
      rw [show eraseKey s.cache fid = c₁ ++ c₂ from by
            rw [eraseKey, hdec, eraseP_append_of_forall _ _ _ hpre _ hpe]] at hs
      subst hs
      refine ⟨?_, ?_, ?_, ?_, ?_, ?_, ?_⟩
      · have hnd := h.nodup
        rw [hdec] at hnd
        exact nodup_shift_front s.history c₁ c₂ e ⟨e.key, e.cnt + 1, e.evictable, false⟩ rfl hnd
      · intro x hx
        simp only [List.mem_append, List.mem_cons] at hx
        have hL := h.keyLt
        rw [hdec] at hL
        rcases hx with hx | rfl | hx | hx
        · exact hL x (by simp [hx])
        · simpa using hL e (by simp)
        · exact hL x (by simp [hx])
        · exact hL x (by simp [hx])
      · exact h.histFlag
      · exact h.histCnt
      · intro x hx
        simp only [List.mem_cons, List.mem_append] at hx
        have hF := h.cacheFlag
        rw [hdec] at hF
        rcases hx with rfl | hx | hx
        · rfl
        · exact hF x (by simp [hx])
        · exact hF x (by simp [hx])
      · intro x hx
        simp only [List.mem_cons, List.mem_append] at hx
        have hC := h.cacheCnt
        rw [hdec] at hC
        rcases hx with rfl | hx | hx
        · simp
          omega
        · exact hC x (by simp [hx])
        · exact hC x (by simp [hx])
      · have hse := h.sizeEq
        simp only [evictCount] at hse ⊢
        rw [hdec] at hse
        rw [count_shift_front s.history c₁ c₂ e ⟨e.key, e.cnt + 1, e.evictable, false⟩ rfl]
        exact hse

theorem rinv_setEvictable {s s' : RState} {fid : Nat} {b : Bool} (h : RInv s)
    (hs : s.setEvictable fid b = some s') : RInv s' := by
  unfold setEvictable at hs
  by_cases hf : fid < s.n
  case neg => simp [hf] at hs
  rw [if_pos hf, Option.some.injEq] at hs
  rcases he : s.findEntry fid with _ | e
  · rw [he] at hs
    exact hs ▸ h
  · rw [he] at hs
    dsimp only at hs
    rcases findEntry_some he with hh | ⟨hh, hc⟩
    · -- entry in history
      obtain ⟨h₁, h₂, hdec, hpre, hpe⟩ := find?_split hh
      have hmem : e ∈ s.history := hdec ▸ List.mem_append.mpr (Or.inr (by simp))
      have hflag : e.inHistory = true := h.histFlag e hmem
      rw [hflag, if_pos rfl] at hs
      rw [hdec, updFirst_append_of_forall _ _ _ _ hpre _ hpe] at hs
      subst hs
      refine ⟨?_, ?_, ?_, ?_, ?_, ?_, ?_⟩
      · have hnd := h.nodup
        rw [hdec] at hnd
        simpa using hnd
      · intro x hx
        simp only [List.mem_append, List.mem_cons] at hx
        have hL := h.keyLt
        rw [hdec] at hL
        rcases hx with (hx | rfl | hx) | hx
        · exact hL x (by simp [hx])
        · simpa using hL e (by simp)
        · exact hL x (by simp [hx])
        · exact hL x (by simp [hx])
      · intro x hx
        simp only [List.mem_append, List.mem_cons] at hx
        have hF := h.histFlag
        rw [hdec] at hF
        rcases hx with hx | rfl | hx
        · exact hF x (by simp [hx])
        · simpa using hflag
        · exact hF x (by simp [hx])
      · intro x hx
        simp only [List.mem_append, List.mem_cons] at hx
        have hC := h.histCnt
        rw [hdec] at hC
        rcases hx with hx | rfl | hx
        · exact hC x (by simp [hx])
        · simpa using hC e (by simp)
        · exact hC x (by simp [hx])
      · exact h.cacheFlag
      · exact h.cacheCnt
      · have hse := h.sizeEq
        simp only [evictCount] at hse ⊢
        rw [hdec] at hse
        simp only [List.countP_append, List.countP_cons] at hse ⊢
        cases b
        all_goals cases hev : e.evictable
        all_goals simp only [hev] at hse ⊢
        all_goals simp at hse ⊢
        all_goals omega
    · -- entry in cache
      obtain ⟨c₁, c₂, hdec, hpre, hpe⟩ := find?_split hc
      have hmem : e ∈ s.cache := hdec ▸ List.mem_append.mpr (Or.inr (by simp))
      have hflag : e.inHistory = false := h.cacheFlag e hmem
      rw [hflag] at hs
      simp only [Bool.false_eq_true, if_false] at hs
      rw [hdec, updFirst_append_of_forall _ _ _ _ hpre _ hpe] at hs
      subst hs
      refine ⟨?_, ?_, ?_, ?_, ?_, ?_, ?_⟩
      · have hnd := h.nodup
        rw [hdec] at hnd
        simpa using hnd
      · intro x hx
        simp only [List.mem_append, List.mem_cons] at hx
        have hL := h.keyLt
        rw [hdec] at hL
        rcases hx with hx | hx | rfl | hx
        · exact hL x (by simp [hx])
        · exact hL x (by simp [hx])
        · simpa using hL e (by simp)
        · exact hL x (by simp [hx])
      · exact h.histFlag
      · exact h.histCnt
      · intro x hx
        simp only [List.mem_append, List.mem_cons] at hx
        have hF := h.cacheFlag
        rw [hdec] at hF
        rcases hx with hx | rfl | hx
        · exact hF x (by simp [hx])
        · simpa using hflag
        · exact hF x (by simp [hx])
      · intro x hx
        simp only [List.mem_append, List.mem_cons] at hx
        have hC := h.cacheCnt
        rw [hdec] at hC
        rcases hx with hx | rfl | hx
        · exact hC x (by simp [hx])
        · simpa using hC e (by simp)
        · exact hC x (by simp [hx])
      · have hse := h.sizeEq
        simp only [evictCount] at hse ⊢
        rw [hdec] at hse
        simp only [List.countP_append, List.countP_cons] at hse ⊢
        cases b
        all_goals cases hev : e.evictable
        all_goals simp only [hev] at hse ⊢
        all_goals simp at hse ⊢
        all_goals omega

theorem rinv_removeFrame {s s' : RState} {fid : Nat} (h : RInv s)
    (hs : s.removeFrame fid = some s') : RInv s' := by
  unfold removeFrame at hs
  by_cases hf : fid < s.n
  case neg => simp [hf] at hs
  rw [if_pos hf] at hs
  rcases he : s.findEntry fid with _ | e
  · rw [he] at hs
    simp only [Option.some.injEq] at hs
    exact hs ▸ h
  · rw [he] at hs
    dsimp only at hs
    by_cases hev : e.evictable = true
    case neg => rw [if_neg hev] at hs; cases hs
    rw [if_pos hev, Option.some.injEq] at hs
    rcases findEntry_some he with hh | ⟨hh, hc⟩
    · -- entry in history
      obtain ⟨h₁, h₂, hdec, hpre, hpe⟩ := find?_split hh
      have hmem : e ∈ s.history := hdec ▸ List.mem_append.mpr (Or.inr (by simp))
      have hflag : e.inHistory = true := h.histFlag e hmem
      rw [hflag, if_pos rfl] at hs
      rw [show eraseKey s.history fid = h₁ ++ h₂ from by
            rw [eraseKey, hdec, eraseP_append_of_forall _ _ _ hpre _ hpe]] at hs
      subst hs
      refine ⟨?_, ?_, ?_, ?_, ?_, ?_, ?_⟩
      · have hnd := h.nodup
        rw [hdec] at hnd
        refine List.Nodup.sublist ?_ hnd
        refine List.Sublist.map _ (List.Sublist.append_right ?_ _)
        exact List.Sublist.append_left (List.sublist_cons_self _ _) _
      · intro x hx
        simp only [List.mem_append] at hx
        have hL := h.keyLt
        rw [hdec] at hL
        rcases hx with (hx | hx) | hx
        · exact hL x (by simp [hx])
        · exact hL x (by simp [hx])
        · exact hL x (by simp [hx])
      · intro x hx
        simp only [List.mem_append] at hx
        have hF := h.histFlag
        rw [hdec] at hF
        rcases hx with hx | hx
        · exact hF x (by simp [hx])
        · exact hF x (by simp [hx])
      · intro x hx
        simp only [List.mem_append] at hx
        have hC := h.histCnt
        rw [hdec] at hC
        rcases hx with hx | hx
        · exact hC x (by simp [hx])
        · exact hC x (by simp [hx])
      · exact h.cacheFlag
      · exact h.cacheCnt
      · have hse := h.sizeEq
        simp only [evictCount] at hse ⊢
        rw [hdec] at hse
        simp only [List.countP_append, List.countP_cons, hev] at hse ⊢
        simp at hse
        omega
    · -- entry in cache
      obtain ⟨c₁, c₂, hdec, hpre, hpe⟩ := find?_split hc
      have hmem : e ∈ s.cache := hdec ▸ List.mem_append.mpr (Or.inr (by simp))
      have hflag : e.inHistory = false := h.cacheFlag e hmem
      rw [hflag] at hs
      simp only [Bool.false_eq_true, if_false] at hs
      rw [show eraseKey s.cache fid = c₁ ++ c₂ from by
            rw [eraseKey, hdec, eraseP_append_of_forall _ _ _ hpre _ hpe]] at hs
      subst hs
      refine ⟨?_, ?_, ?_, ?_, ?_, ?_, ?_⟩
      · have hnd := h.nodup
        rw [hdec] at hnd
        refine List.Nodup.sublist ?_ hnd
        refine List.Sublist.map _ (List.Sublist.append_left ?_ _)
        exact List.Sublist.append_left (List.sublist_cons_self _ _) _
      · intro x hx
        simp only [List.mem_append] at hx
        have hL := h.keyLt
        rw [hdec] at hL
        rcases hx with hx | hx | hx
        · exact hL x (by simp [hx])
        · exact hL x (by simp [hx])
        · exact hL x (by simp [hx])
      · exact h.histFlag
      · exact h.histCnt
      · intro x hx
        simp only [List.mem_append] at hx
        have hF := h.cacheFlag
        rw [hdec] at hF
        rcases hx with hx | hx
        · exact hF x (by simp [hx])
        · exact hF x (by simp [hx])
      · intro x hx
        simp only [List.mem_append] at hx
        have hC := h.cacheCnt
        rw [hdec] at hC
        rcases hx with hx | hx
        · exact hC x (by simp [hx])
        · exact hC x (by simp [hx])
      · have hse := h.sizeEq
        simp only [evictCount] at hse ⊢
        rw [hdec] at hse
        simp only [List.countP_append, List.countP_cons, hev] at hse ⊢
        simp at hse
        omega

theorem scanEvict_eq_none {l : List Entry} (h : scanEvict l = none) :
    ∀ x ∈ l, x.evictable = false := by
  induction l with
  | nil => simp
  | cons e rest ih =>
    unfold scanEvict at h
    by_cases hev : e.evictable = true
    · rw [if_pos hev] at h
      cases h
    · have hev' : e.evictable = false := by simpa using hev
      rw [if_neg hev] at h
      rcases hrec : scanEvict rest with _ | p
      · intro x hx
        rcases List.mem_cons.mp hx with rfl | hx
        · exact hev'
        · exact ih hrec x hx
      · rw [hrec] at h
        cases h

theorem none_of_forall_not_evictable {l : List Entry}
    (h : ∀ x ∈ l, x.evictable = false) : scanEvict l = none := by
  induction l with
  | nil => rfl
  | cons e rest ih =>
    unfold scanEvict
    have hev : e.evictable = false := h e (by simp)
    rw [if_neg (by simp [hev])]
    rw [ih (fun x hx => h x (List.mem_cons_of_mem _ hx))]

theorem scanEvict_eq_some {l : List Entry} {f : Entry} {rest : List Entry}
    (h : scanEvict l = some (f, rest)) :
    ∃ l₁ l₂, l = l₁ ++ f :: l₂ ∧ (∀ x ∈ l₁, x.evictable = false) ∧
      f.evictable = true ∧ rest = l₁ ++ l₂ := by
  induction l generalizing rest with
  | nil => cases h
  | cons e tl ih =>
    unfold scanEvict at h
    by_cases hev : e.evictable = true
    · rw [if_pos hev] at h
      simp only [Option.some.injEq, Prod.mk.injEq] at h
      obtain ⟨rfl, rfl⟩ := h
      exact ⟨[], tl, by simp, by simp, hev, by simp⟩
    · have hev' : e.evictable = false := by simpa using hev
      rw [if_neg hev] at h
      rcases hrec : scanEvict tl with _ | ⟨g, rest'⟩
      · rw [hrec] at h
        cases h
      · rw [hrec] at h
        simp only [Option.some.injEq, Prod.mk.injEq] at h
        obtain ⟨rfl, rfl⟩ := h
        obtain ⟨l₁, l₂, rfl, hall, hf, rfl⟩ := ih hrec
        refine ⟨e :: l₁, l₂, by simp, ?_, hf, by simp⟩
        intro x hx
        rcases List.mem_cons.mp hx with rfl | hx
        · exact hev'
        · exact hall x hx

theorem rinv_evict {s s' : RState} {fid : Nat} (h : RInv s)
    (hs : s.evict = some (fid, s')) : RInv s' := by
  unfold evict at hs
  rcases hh : scanEvict s.history.reverse with _ | ⟨e, rest⟩
  · rw [hh] at hs
    rcases hc : scanEvict s.cache.reverse with _ | ⟨e, rest⟩
    · rw [hc] at hs
      cases hs
    · rw [hc] at hs
      simp only [Option.some.injEq, Prod.mk.injEq] at hs
      obtain ⟨rfl, rfl⟩ := hs
      obtain ⟨r₁, r₂, hrdec, hall, hev, rfl⟩ := scanEvict_eq_some hc
      have hcdec : s.cache = r₂.reverse ++ e :: r₁.reverse := by
        have := congrArg List.reverse hrdec
        simpa using this
      have hnewc : (r₁ ++ r₂).reverse = r₂.reverse ++ r₁.reverse := by simp
      rw [hnewc]
      refine ⟨?_, ?_, ?_, ?_, ?_, ?_, ?_⟩
      · have hnd := h.nodup
        rw [hcdec] at hnd
        refine List.Nodup.sublist ?_ hnd
        refine List.Sublist.map _ (List.Sublist.append_left ?_ _)
        exact List.Sublist.append_left (List.sublist_cons_self _ _) _
      · intro x hx
        simp only [List.mem_append] at hx
        have hL := h.keyLt
        rw [hcdec] at hL
        rcases hx with hx | hx | hx
        · exact hL x (by simp [hx])
        · exact hL x (by simp [hx])
        · exact hL x (by simp [hx])
      · exact h.histFlag
      · exact h.histCnt
      · intro x hx
        simp only [List.mem_append] at hx
        have hF := h.cacheFlag
        rw [hcdec] at hF
        rcases hx with hx | hx
        · exact hF x (by simp [hx])
        · exact hF x (by simp [hx])
      · intro x hx
        simp only [List.mem_append] at hx
        have hC := h.cacheCnt
        rw [hcdec] at hC
        rcases hx with hx | hx
        · exact hC x (by simp [hx])
        · exact hC x (by simp [hx])
      · have hse := h.sizeEq
        simp only [evictCount] at hse ⊢
        rw [hcdec] at hse
        simp only [List.countP_append, List.countP_cons, List.countP_reverse, hev] at hse ⊢
        simp at hse
        omega
  · rw [hh] at hs
    simp only [Option.some.injEq, Prod.mk.injEq] at hs
    obtain ⟨rfl, rfl⟩ := hs
    obtain ⟨r₁, r₂, hrdec, hall, hev, rfl⟩ := scanEvict_eq_some hh
    have hhdec : s.history = r₂.reverse ++ e :: r₁.reverse := by
      have := congrArg List.reverse hrdec
      simpa using this
    have hnewh : (r₁ ++ r₂).reverse = r₂.reverse ++ r₁.reverse := by simp
    rw [hnewh]
    refine ⟨?_, ?_, ?_, ?_, ?_, ?_, ?_⟩
    · have hnd := h.nodup
      rw [hhdec] at hnd
      refine List.Nodup.sublist ?_ hnd
      refine List.Sublist.map _ (List.Sublist.append_right ?_ _)
      exact List.Sublist.append_left (List.sublist_cons_self _ _) _
    · intro x hx
      simp only [List.mem_append] at hx
      have hL := h.keyLt
      rw [hhdec] at hL
      rcases hx with (hx | hx) | hx
      · exact hL x (by simp [hx])
      · exact hL x (by simp [hx])
      · exact hL x (by simp [hx])
    · intro x hx
      simp only [List.mem_append] at hx
      have hF := h.histFlag
      rw [hhdec] at hF
      rcases hx with hx | hx
      · exact hF x (by simp [hx])
      · exact hF x (by simp [hx])
    · intro x hx
      simp only [List.mem_append] at hx
      have hC := h.histCnt
      rw [hhdec] at hC
      rcases hx with hx | hx
      · exact hC x (by simp [hx])
      · exact hC x (by simp [hx])
    · exact h.cacheFlag
    · exact h.cacheCnt
    · have hse := h.sizeEq
      simp only [evictCount] at hse ⊢
      rw [hhdec] at hse
      simp only [List.countP_append, List.countP_cons, List.countP_reverse, hev] at hse ⊢
      simp at hse
      omega

/-- Every reachable replacer state satisfies the state invariant. -/
theorem rinv_reachable {s : RState} (h : Reachable s) : RInv s := by
  induction h with
  | init n k => exact rinv_init n k
  | access _ hstep ih => exact rinv_recordAccess ih hstep
  | setEv _ hstep ih => exact rinv_setEvictable ih hstep
  | remove _ hstep ih => exact rinv_removeFrame ih hstep
  | evictStep _ hstep ih => exact rinv_evict ih hstep

/-- C4: after any sequence of replacer operations starting from a fresh
instance, `Size()` (that is, `curr_size_`) equals the number of currently
tracked records whose `evictable` flag is true. -/
theorem claim_C4_size_consistency (s : RState) (hs : Reachable s) :
    s.sizeR = (s.history ++ s.cache).countP (fun e => e.evictable) :=
  (rinv_reachable hs).sizeEq

theorem claim_C4_size_consistency_witness :
    (⟨2, 2, [⟨0, 1, true, true⟩], [], 1⟩ : RState).sizeR =
      ((⟨2, 2, [⟨0, 1, true, true⟩], [], 1⟩ : RState).history ++
        (⟨2, 2, [⟨0, 1, true, true⟩], [], 1⟩ : RState).cache).countP
        (fun e => e.evictable) :=
  claim_C4_size_consistency _
    (Reachable.setEv
      (Reachable.access (Reachable.init 2 2)
        (show (RState.init 2 2).recordAccess 0 =
          some ⟨2, 2, [⟨0, 1, false, true⟩], [], 0⟩ by decide))
      (show (⟨2, 2, [⟨0, 1, false, true⟩], [], 0⟩ : RState).setEvictable 0 true =
        some ⟨2, 2, [⟨0, 1, true, true⟩], [], 1⟩ by decide))

/-- C1: on every reachable state, `Evict` returns nothing exactly when no
tracked record is evictable; otherwise it prefers the history list, picking
the evictable history record that was inserted earliest (all entries behind
the chosen one, which are the older ones, are non-evictable); only when the
history list has no evictable record does it pick from the cache list the
evictable record with the oldest most-recent access (cache is MRU-at-front);
on success the chosen record is removed and `curr_size_` decreases by one. -/
theorem claim_C1_evict_policy (s : RState) (hs : Reachable s) :
    ((∀ e ∈ s.history ++ s.cache, e.evictable = false) → s.evict = none) ∧
    (s.evict = none → ∀ e ∈ s.history ++ s.cache, e.evictable = false) ∧
    (∀ fid s', s.evict = some (fid, s') →
      s'.currSize + 1 = s.currSize ∧
      ((∃ pre x post, s.history = pre ++ x :: post ∧ x.evictable = true ∧
          (∀ y ∈ post, y.evictable = false) ∧ fid = x.key ∧
          s'.history = pre ++ post ∧ s'.cache = s.cache) ∨
       ((∀ e ∈ s.history, e.evictable = false) ∧
        ∃ pre x post, s.cache = pre ++ x :: post ∧ x.evictable = true ∧
          (∀ y ∈ post, y.evictable = false) ∧ fid = x.key ∧
          s'.cache = pre ++ post ∧ s'.history = s.history))) := by
  have hinv := rinv_reachable hs
  refine ⟨?_, ?_, ?_⟩
  · intro hall
    unfold evict
    rw [none_of_forall_not_evictable
        (fun x hx => hall x (List.mem_append.mpr (Or.inl (List.mem_reverse.mp hx))))]
    rw [none_of_forall_not_evictable
        (fun x hx => hall x (List.mem_append.mpr (Or.inr (List.mem_reverse.mp hx))))]
  · intro hnone x hx
    unfold evict at hnone
    rcases hh : scanEvict s.history.reverse with _ | ⟨e, rest⟩
    · rw [hh] at hnone
      rcases hc : scanEvict s.cache.reverse with _ | ⟨f, rest⟩
      · rcases List.mem_append.mp hx with hx | hx
        · exact scanEvict_eq_none hh x (List.mem_reverse.mpr hx)
        · exact scanEvict_eq_none hc x (List.mem_reverse.mpr hx)
      · rw [hc] at hnone
        simp at hnone
    · rw [hh] at hnone
      simp at hnone
  · intro fid s' heq
    unfold evict at heq
    rcases hh : scanEvict s.history.reverse with _ | ⟨e, rest⟩
    · rw [hh] at heq
      rcases hc : scanEvict s.cache.reverse with _ | ⟨f, rest⟩
      · rw [hc] at heq
        cases heq
      · rw [hc] at heq
        simp only [Option.some.injEq, Prod.mk.injEq] at heq
        obtain ⟨rfl, rfl⟩ := heq
        obtain ⟨r₁, r₂, hrdec, hall, hev, rfl⟩ := scanEvict_eq_some hc
        have hcdec : s.cache = r₂.reverse ++ f :: r₁.reverse := by
          have := congrArg List.reverse hrdec
          simpa using this
        have hsize : 0 < s.currSize := by
          have hse := hinv.sizeEq
          have hpos : 0 < s.evictCount := by
            refine List.countP_pos_iff.mpr ⟨f, ?_, by simp [hev]⟩
            rw [List.mem_append, hcdec]
            simp
          omega
        constructor
        · show s.currSize - 1 + 1 = s.currSize
          omega
        · refine Or.inr ⟨?_, r₂.reverse, f, r₁.reverse, hcdec, hev, ?_, rfl, ?_, rfl⟩
          · intro x hx
            exact scanEvict_eq_none hh x (List.mem_reverse.mpr hx)
          · intro y hy
            exact hall y (List.mem_reverse.mp hy)
          · show (r₁ ++ r₂).reverse = r₂.reverse ++ r₁.reverse
            simp
    · rw [hh] at heq
      simp only [Option.some.injEq, Prod.mk.injEq] at heq
      obtain ⟨rfl, rfl⟩ := heq
      obtain ⟨r₁, r₂, hrdec, hall, hev, rfl⟩ := scanEvict_eq_some hh
      have hhdec : s.history = r₂.reverse ++ e :: r₁.reverse := by
        have := congrArg List.reverse hrdec
        simpa using this
      have hsize : 0 < s.currSize := by
        have hse := hinv.sizeEq
        have hpos : 0 < s.evictCount := by
          refine List.countP_pos_iff.mpr ⟨e, ?_, by simp [hev]⟩
          rw [List.mem_append, hhdec]
          simp
        omega
      constructor
      · show s.currSize - 1 + 1 = s.currSize
        omega
      · refine Or.inl ⟨r₂.reverse, e, r₁.reverse, hhdec, hev, ?_, rfl, ?_, rfl⟩
        · intro y hy
          exact hall y (List.mem_reverse.mp hy)
        · show (r₁ ++ r₂).reverse = r₂.reverse ++ r₁.reverse
          simp

theorem claim_C1_evict_policy_witness :
    (⟨2, 2, [], [], 0⟩ : RState).currSize + 1 =
      (⟨2, 2, [⟨0, 1, true, true⟩], [], 1⟩ : RState).currSize := by
  have h := claim_C1_evict_policy ⟨2, 2, [⟨0, 1, true, true⟩], [], 1⟩
    (Reachable.setEv
      (Reachable.access (Reachable.init 2 2)
        (show (RState.init 2 2).recordAccess 0 =
          some ⟨2, 2, [⟨0, 1, false, true⟩], [], 0⟩ by decide))
      (show (⟨2, 2, [⟨0, 1, false, true⟩], [], 0⟩ : RState).setEvictable 0 true =
        some ⟨2, 2, [⟨0, 1, true, true⟩], [], 1⟩ by decide))
  exact (h.2.2 0 ⟨2, 2, [], [], 0⟩ (by decide)).1

/-- C7: on every reachable state, `RecordAccess` on a tracked frame
increments its `access_count`; while the new count stays below `K` a history
record keeps its exact list position; when the new count reaches `K` the
record moves to the front of the cache list with `in_history` cleared; a
record already in cache moves to the front of the cache list. -/
theorem claim_C7_record_access (s : RState) (hs : Reachable s) (fid : Nat)
    (e : Entry) (he : s.findEntry fid = some e) :
    ∃ s', s.recordAccess fid = some s' ∧ s'.n = s.n ∧ s'.k = s.k ∧
      ((e.inHistory = true ∧ e.cnt + 1 < s.k ∧
        ∃ pre post, s.history = pre ++ e :: post ∧
          s'.history = pre ++ ⟨e.key, e.cnt + 1, e.evictable, true⟩ :: post ∧
          s'.cache = s.cache) ∨
       (e.inHistory = true ∧ e.cnt + 1 = s.k ∧
        ∃ pre post, s.history = pre ++ e :: post ∧ s'.history = pre ++ post ∧
          s'.cache = ⟨e.key, e.cnt + 1, e.evictable, false⟩ :: s.cache) ∨
       (e.inHistory = false ∧ s.k ≤ e.cnt ∧
        ∃ pre post, s.cache = pre ++ e :: post ∧ s'.history = s.history ∧
          s'.cache = ⟨e.key, e.cnt + 1, e.evictable, false⟩ :: (pre ++ post))) := by
  have hinv := rinv_reachable hs
  rcases findEntry_some he with hh | ⟨hh, hc⟩
  · -- tracked in history
    obtain ⟨h₁, h₂, hdec, hpre, hpe⟩ := find?_split hh
    have hkey : e.key = fid := keyIs_eq hpe
    have hmem : e ∈ s.history := hdec ▸ List.mem_append.mpr (Or.inr (by simp))
    have hflag := hinv.histFlag e hmem
    have hcnt := hinv.histCnt e hmem
    have hf : fid < s.n := hkey ▸ hinv.keyLt e (List.mem_append.mpr (Or.inl hmem))
    by_cases hlt : e.cnt + 1 < s.k
    · have hstep : s.recordAccess fid = some
          { s with history := h₁ ++ ⟨e.key, e.cnt + 1, e.evictable, e.inHistory⟩ :: h₂ } := by
        unfold recordAccess
        rw [if_pos hf, he]
        dsimp only
        rw [if_pos hlt, hflag, if_pos rfl]
        rw [hdec, updFirst_append_of_forall _ _ _ _ hpre _ hpe]
        rw [hflag]
      refine ⟨_, hstep, rfl, rfl, Or.inl ⟨hflag, hlt, h₁, h₂, hdec, ?_, rfl⟩⟩
      rw [hflag]
    · have hk : e.cnt + 1 = s.k := by omega
      have hstep : s.recordAccess fid = some
          { s with history := h₁ ++ h₂,
                   cache := ⟨e.key, e.cnt + 1, e.evictable, false⟩ :: s.cache } := by
        unfold recordAccess
        rw [if_pos hf, he]
        dsimp only
        rw [if_neg hlt, hflag, if_pos rfl]
        rw [show eraseKey s.history fid = h₁ ++ h₂ from by
              rw [eraseKey, hdec, eraseP_append_of_forall _ _ _ hpre _ hpe]]
      exact ⟨_, hstep, rfl, rfl, Or.inr (Or.inl ⟨hflag, hk, h₁, h₂, hdec, rfl, rfl⟩)⟩
  · -- tracked in cache
    obtain ⟨c₁, c₂, hdec, hpre, hpe⟩ := find?_split hc
    have hkey : e.key = fid := keyIs_eq hpe
    have hmem : e ∈ s.cache := hdec ▸ List.mem_append.mpr (Or.inr (by simp))
    have hflag := hinv.cacheFlag e hmem
    have hcnt := hinv.cacheCnt e hmem
    have hf : fid < s.n := hkey ▸ hinv.keyLt e (List.mem_append.mpr (Or.inr hmem))
    have hlt : ¬ (e.cnt + 1 < s.k) := by omega
    have hstep : s.recordAccess fid = some
        { s with cache := ⟨e.key, e.cnt + 1, e.evictable, false⟩ :: (c₁ ++ c₂) } := by
      unfold recordAccess
      rw [if_pos hf, he]
      dsimp only
      rw [if_neg hlt, hflag]
      simp only [Bool.false_eq_true, if_false]
      rw [show eraseKey s.cache fid = c₁ ++ c₂ from by
            rw [eraseKey, hdec, eraseP_append_of_forall _ _ _ hpre _ hpe]]
    exact ⟨_, hstep, rfl, rfl, Or.inr (Or.inr ⟨hflag, hcnt, c₁, c₂, hdec, rfl, rfl⟩)⟩

theorem claim_C7_record_access_witness :
    ((⟨2, 2, [⟨0, 1, false, true⟩], [], 0⟩ : RState).recordAccess 0).isSome = true := by
  obtain ⟨s', h1, _⟩ := claim_C7_record_access ⟨2, 2, [⟨0, 1, false, true⟩], [], 0⟩
    (Reachable.access (Reachable.init 2 2)
      (show (RState.init 2 2).recordAccess 0 =
        some ⟨2, 2, [⟨0, 1, false, true⟩], [], 0⟩ by decide))
    0 ⟨0, 1, false, true⟩ (by decide)
  rw [h1]
  rfl

/-- C10: on every reachable state, `RecordAccess` on a valid untracked frame
never takes the drop-when-full branch: `IsFull()` compares `curr_size_` (the
evictable count) with `replacer_size_`, and with an untracked valid frame the
tracked count, hence the evictable count, is strictly below `replacer_size_`;
so a fresh record is always created. -/
theorem claim_C10_no_drop (s : RState) (hs : Reachable s) (fid : Nat)
    (hf : fid < s.n) (hun : s.findEntry fid = none) :
    s.isFull = false ∧
    ∃ s', s.recordAccess fid = some s' ∧ s'.tracked = s.tracked + 1 ∧
      (s'.findEntry fid).isSome = true := by
  have hinv := rinv_reachable hs
  obtain ⟨hh, hc⟩ := findEntry_none hun
  have hkne : ∀ y ∈ s.history ++ s.cache, y.key ≠ fid := by
    intro y hy
    rcases List.mem_append.mp hy with hy | hy
    · have := List.find?_eq_none.mp hh y hy
      simpa [keyIs] using this
    · have := List.find?_eq_none.mp hc y hy
      simpa [keyIs] using this
  have hsub : ((s.history ++ s.cache).map Entry.key).toFinset ⊆
      (Finset.range s.n).erase fid := by
    intro x hx
    rw [List.mem_toFinset] at hx
    obtain ⟨y, hy, rfl⟩ := List.mem_map.mp hx
    exact Finset.mem_erase.mpr ⟨hkne y hy, Finset.mem_range.mpr (hinv.keyLt y hy)⟩
  have hlen : (s.history ++ s.cache).length < s.n := by
    have h1 := List.toFinset_card_of_nodup hinv.nodup
    have h2 := Finset.card_le_card hsub
    have h3 : ((Finset.range s.n).erase fid).card = s.n - 1 := by
      rw [Finset.card_erase_of_mem (Finset.mem_range.mpr hf), Finset.card_range]
    have h4 : ((s.history ++ s.cache).map Entry.key).length =
        (s.history ++ s.cache).length := List.length_map _ _
    omega
  have hsmall : s.currSize < s.n := by
    have h5 : s.evictCount ≤ (s.history ++ s.cache).length := List.countP_le_length _
    have h6 := hinv.sizeEq
    omega
  have hfull : s.isFull = false := by
    simp only [isFull, decide_eq_false_iff_not, not_le]
    exact hsmall
  refine ⟨hfull, ?_⟩
  by_cases hk : 1 < s.k
  · refine ⟨{ s with history := ⟨fid, 1, false, true⟩ :: s.history }, ?_, ?_, ?_⟩
    · unfold recordAccess
      rw [if_pos hf, hun]
      dsimp only
      rw [if_neg (by simp [hfull]), if_pos hk]
    · show (⟨fid, 1, false, true⟩ :: s.history).length + s.cache.length =
        s.history.length + s.cache.length + 1
      simp only [List.length_cons]
      omega
    · unfold findEntry
      rw [show (⟨fid, 1, false, true⟩ :: s.history).find? (keyIs fid) =
            some ⟨fid, 1, false, true⟩ from
          List.find?_cons_of_pos _ (by simp [keyIs])]
      rfl
  · refine ⟨{ s with cache := ⟨fid, 1, false, false⟩ :: s.cache }, ?_, ?_, ?_⟩
    · unfold recordAccess
      rw [if_pos hf, hun]
      dsimp only
      rw [if_neg (by simp [hfull]), if_neg hk]
    · show s.history.length + (⟨fid, 1, false, false⟩ :: s.cache).length =
        s.history.length + s.cache.length + 1
      simp only [List.length_cons]
      omega
    · unfold findEntry
      rw [hh]
      rw [show (⟨fid, 1, false, false⟩ :: s.cache).find? (keyIs fid) =
            some ⟨fid, 1, false, false⟩ from
          List.find?_cons_of_pos _ (by simp [keyIs])]
      rfl

theorem claim_C10_no_drop_witness :
    (RState.init 2 2).isFull = false :=
  (claim_C10_no_drop (RState.init 2 2) (Reachable.init 2 2) 0 (by decide) (by decide)).1

end RState

theorem sanity_record_access : (RState.init 3 2).recordAccess 0 =
    some ⟨3, 2, [⟨0, 1, false, true⟩], [], 0⟩ := by decide

theorem sanity_move_to_cache :
    ((RState.init 3 2).recordAccess 0).bind (fun s => s.recordAccess 0) =
    some ⟨3, 2, [], [⟨0, 2, false, false⟩], 0⟩ := by decide

theorem sanity_invalid_frame : ((RState.init 3 2).recordAccess 5) = none := by decide

theorem sanity_evict_run :
    (((RState.init 3 2).recordAccess 0).bind (fun s => s.setEvictable 0 true)).map
      RState.evict =
    some (some (0, ⟨3, 2, [], [], 0⟩)) := by decide

/-! ### Extendible hash table: data model

Source: `src/container/hash/extendible_hash_table.cpp`.  The directory is a
list of bucket indices into a store of buckets; several slots holding the
same index model the `shared_ptr` aliasing of the source.  `std::hash` is an
arbitrary parameter `hash : K → Nat` (for the instantiated key types `int`
and pointers it is injective).  `GetLowKBit k n` is `n % 2 ^ k` and
`TestKBit k n` is `n.testBit k`.  Two details live only in the header (not
under `src/`) and are modelled from the spec: `Bucket::IsFull` holds when the
item count has reached `bucket_capacity` (spec §3.2: size ≤ bucket_capacity),
and the `Bucket` constructor's depth parameter defaults to `0` (spec §3.2:
initial state has one bucket with local_depth 0). -/

namespace EHTable

structure Bucket (K V : Type) where
  size : Nat
  depth : Nat
  list : List (K × V)
deriving DecidableEq, Repr

instance {K V : Type} : Inhabited (Bucket K V) := ⟨⟨0, 0, []⟩⟩

structure EHT (K V : Type) where
  globalDepth : Nat
  bucketSize : Nat
  numBuckets : Nat
  dir : List Nat
  buckets : List (Bucket K V)
deriving DecidableEq, Repr

/-- GetLowKBit: the low `k` bits of `n`. -/
def lowBits (k n : Nat) : Nat := n % 2 ^ k

/-- TestKBit: whether bit `k` of `n` is set. -/
def testKBit (k n : Nat) : Bool := n.testBit k

variable {K V : Type} [DecidableEq K]

/-- The key-equality predicate of `FindKeyPos`'s linear scan. -/
def keyEq (key : K) : K × V → Bool := fun p => decide (p.1 = key)

/-- Constructor: `global_depth_ = 0`, one bucket of depth `0`, one slot. -/
def initTable (cap : Nat) : EHT K V := ⟨0, cap, 1, [0], [⟨cap, 0, []⟩]⟩

def Bucket.isFull (b : Bucket K V) : Bool := b.size ≤ b.list.length

/-- Bucket::Find via FindKeyPos (first matching key). -/
def Bucket.findVal (b : Bucket K V) (key : K) : Option V :=
  (b.list.find? (keyEq key)).map Prod.snd

/-- Bucket::Remove: erase the node found by FindKeyPos; `none` when absent
(the source returns `false`). -/
def Bucket.removeKey (b : Bucket K V) (key : K) : Option (Bucket K V) :=
  match b.list.find? (keyEq key) with
  | some _ => some { b with list := b.list.eraseP (keyEq key) }
  | none => none

/-- Bucket::Insert: update in place when the key exists, fail when full,
otherwise `emplace_front`. -/
def Bucket.insertPair (b : Bucket K V) (key : K) (val : V) : Option (Bucket K V) :=
  match b.list.find? (keyEq key) with
  | some _ => some { b with list := updFirst (keyEq key) (fun p => (p.1, val)) b.list }
  | none =>
    if b.isFull then none
    else some { b with list := (key, val) :: b.list }

variable (hash : K → Nat)

/-- IndexOf: `hash(key) & ((1 << global_depth_) - 1)`. -/
def indexOf (s : EHT K V) (key : K) : Nat := lowBits s.globalDepth (hash key)

/-- The bucket referenced by directory slot `i`. -/
def bucketAt (s : EHT K V) (i : Nat) : Bucket K V :=
  s.buckets.getD (s.dir.getD i 0) default

/-- Find: compute the slot, delegate to the bucket's linear scan. -/
def findT (s : EHT K V) (key : K) : Option V :=
  Bucket.findVal (bucketAt s (indexOf hash s key)) key

/-- Remove: compute the slot, delegate; returns whether a key was removed. -/
def removeT (s : EHT K V) (key : K) : Bool × EHT K V :=
  let bid := s.dir.getD (indexOf hash s key) 0
  match Bucket.removeKey (s.buckets.getD bid default) key with
  | some b' => (true, { s with buckets := s.buckets.set bid b' })
  | none => (false, s)

/-- The slot-redirection loop of RedistributeBucket: slot `i` is redirected
to the new bucket exactly when bit `depth` of `i` is set and the low `depth`
bits of `i` equal the signature taken from the first item. -/
def redirect (s : EHT K V) (depth lowbit newId : Nat) : List Nat :=
  (List.range s.dir.length).map
    (fun i => if testKBit depth i && decide (lowBits depth i = lowbit) then newId
              else s.dir.getD i 0)

/-- The item-moving loop of RedistributeBucket: items whose hash has bit
`depth` set are inserted into the new bucket (after the `BUSTUB_ASSERT` that
it is not full, modelled by `none`) and erased from the old list. -/
def moveLoop (depth : Nat) : List (K × V) → Bucket K V →
    Option (List (K × V) × Bucket K V)
  | [], nb => some ([], nb)
  | p :: rest, nb =>
    if testKBit depth (hash p.1) then
      if nb.isFull then none
      else moveLoop depth rest ((Bucket.insertPair nb p.1 p.2).getD nb)
    else
      match moveLoop depth rest nb with
      | some (rem, nb') => some (p :: rem, nb')
      | none => none

/-- RedistributeBucket (source lines 128-151): increment the bucket's depth,
allocate a sibling at depth `d+1`, redirect the slots whose bit `d` is set
and whose low `d` bits match the first item's signature, and move the items
whose hash has bit `d` set.  Reading the first item of an empty bucket is
undefined in the source, hence `none`. -/
def redistribute (s : EHT K V) (bid : Nat) : Option (EHT K V) :=
  let b := s.buckets.getD bid default
  let depth := b.depth
  match b.list.head? with
  | none => none
  | some item0 =>
    let lowbit := lowBits depth (hash item0.1)
    let newId := s.buckets.length
    let dir' := redirect s depth lowbit newId
    match moveLoop hash depth b.list ⟨s.bucketSize, depth + 1, []⟩ with
    | none => none
    | some (rem, nb') =>
      some { globalDepth := s.globalDepth, bucketSize := s.bucketSize,
             numBuckets := s.numBuckets + 1, dir := dir',
             buckets := (s.buckets.set bid ⟨b.size, depth + 1, rem⟩) ++ [nb'] }

/-- Insert (source lines 100-125), with explicit fuel for the
split-and-retry loop.  `none` models both a failed `assert`/undefined
behaviour and fuel exhaustion.  On a failed bucket insert: if the local
depth equals the global depth the directory doubles (second half mirroring
the first) and `global_depth_` increments; then the bucket is split and the
insert retried. -/
def insertFuel : Nat → EHT K V → K → V → Option (EHT K V)
  | 0, _, _, _ => none
  | fuel + 1, s, key, val =>
    let bid := s.dir.getD (indexOf hash s key) 0
    let b := s.buckets.getD bid default
    match Bucket.insertPair b key val with
    | some b' => some { s with buckets := s.buckets.set bid b' }
    | none =>
      if s.globalDepth < b.depth then none
      else
        let s₁ := if s.globalDepth = b.depth then
            { s with dir := s.dir ++ s.dir, globalDepth := s.globalDepth + 1 }
          else s
        if b.depth < s₁.globalDepth then
          match redistribute hash s₁ bid with
          | none => none
          | some s₂ => insertFuel fuel s₂ key val
        else insertFuel fuel s₁ key val

/-- Table states reachable from a fresh table by successful operations. -/
inductive ReachT : EHT K V → Prop
  | init (cap : Nat) : ReachT (initTable cap)
  | ins {s s' : EHT K V} {fuel : Nat} {key : K} {val : V} :
      ReachT s → insertFuel hash fuel s key val = some s' → ReachT s'
  | rem {s : EHT K V} {key : K} :
      ReachT s → ReachT (removeT hash s key).2

end EHTable

section EHTExamples

open EHTable

theorem sanity_find_empty :
    findT (fun n => n) (initTable 1 : EHT Nat Nat) 0 = none := by decide

theorem sanity_insert_split :
    (insertFuel (fun n => n) 3 (initTable 1 : EHT Nat Nat) 0 10).bind
      (fun s => insertFuel (fun n => n) 3 s 1 11) =
    some ⟨1, 1, 2, [0, 1], [⟨1, 1, [(0, 10)]⟩, ⟨1, 1, [(1, 11)]⟩]⟩ := by decide

theorem sanity_find_after_split :
    ((insertFuel (fun n => n) 3 (initTable 1 : EHT Nat Nat) 0 10).bind
      (fun s => insertFuel (fun n => n) 3 s 1 11)).map
        (fun s => (findT (fun n => n) s 0, findT (fun n => n) s 1)) =
    some (some 10, some 11) := by decide

theorem sanity_directory_doubling :
    (insertFuel (fun n => n) 5 (initTable 2 : EHT Nat Nat) 0 7).bind
      (fun s => (insertFuel (fun n => n) 5 s 4 8).bind
        (fun t => insertFuel (fun n => n) 5 t 8 9)) =
    some ⟨3, 2, 4, [0, 1, 2, 1, 3, 1, 2, 1],
      [⟨2, 3, [(8, 9), (0, 7)]⟩, ⟨2, 1, []⟩, ⟨2, 2, []⟩, ⟨2, 3, [(4, 8)]⟩]⟩ := by decide

end EHTExamples

namespace EHTable

/-! ### Bit-arithmetic facts about the masking helpers -/

theorem lowBits_lt (k n : Nat) : lowBits k n < 2 ^ k :=
  Nat.mod_lt _ (Nat.two_pow_pos k)

theorem lowBits_lowBits {d g : Nat} (h : d ≤ g) (n : Nat) :
    lowBits d (lowBits g n) = lowBits d n :=
  Nat.mod_mod_of_dvd n (pow_dvd_pow 2 h)

theorem lowBits_succ (d n : Nat) :
    lowBits (d + 1) n = lowBits d n + (if testKBit d n then 2 ^ d else 0) := by
  have h2 : (2 : Nat) ^ (d + 1) = 2 ^ d * 2 := by ring
  rw [lowBits, h2, Nat.mod_mul, lowBits, testKBit, Nat.testBit_to_div_mod]
  rcases Nat.mod_two_eq_zero_or_one (n / 2 ^ d) with h | h
  · simp [h]
  · simp [h]

theorem testKBit_lowBits {d g : Nat} (h : d < g) (n : Nat) :
    testKBit d (lowBits g n) = testKBit d n := by
  rw [testKBit, testKBit, lowBits, Nat.testBit_mod_two_pow]
  simp [h]

theorem lowBits_succ_eq_iff_low {d sg : Nat} (hsg : sg < 2 ^ d) (n : Nat) :
    lowBits (d + 1) n = sg ↔ (lowBits d n = sg ∧ testKBit d n = false) := by
  rw [lowBits_succ]
  have hlt := lowBits_lt d n
  by_cases hb : testKBit d n = true
  · rw [if_pos hb]
    constructor
    · intro h
      exfalso
      omega
    · rintro ⟨h1, h2⟩
      rw [hb] at h2
      cases h2
  · have hb' : testKBit d n = false := by simpa using hb
    rw [if_neg hb]
    simp [hb']

theorem lowBits_succ_eq_iff_high {d sg : Nat} (_hsg : sg < 2 ^ d) (n : Nat) :
    lowBits (d + 1) n = sg + 2 ^ d ↔ (lowBits d n = sg ∧ testKBit d n = true) := by
  rw [lowBits_succ]
  have hlt := lowBits_lt d n
  by_cases hb : testKBit d n = true
  · rw [if_pos hb]
    constructor
    · intro h
      exact ⟨by omega, hb⟩
    · rintro ⟨h1, _⟩
      omega
  · have hb' : testKBit d n = false := by simpa using hb
    rw [if_neg hb]
    constructor
    · intro h
      exfalso
      omega
    · rintro ⟨h1, h2⟩
      rw [hb'] at h2
      cases h2

theorem lowBits_add_pow {d g : Nat} (h : d ≤ g) (n : Nat) :
    lowBits d (n + 2 ^ g) = lowBits d n := by
  obtain ⟨c, hc⟩ := pow_dvd_pow 2 h
  rw [lowBits, lowBits, hc, Nat.add_mul_mod_self_left]

/-- The number of directory slots of `2 ^ g` whose low `d` bits equal a fixed
signature `sg < 2 ^ d` is exactly `2 ^ (g - d)`. -/
theorem card_slots (g d sg : Nat) (hd : d ≤ g) (hsg : sg < 2 ^ d) :
    ((Finset.range (2 ^ g)).filter (fun i => lowBits d i = sg)).card =
      2 ^ (g - d) := by
  have hinj : Function.Injective (fun j : Nat => sg + 2 ^ d * j) := by
    intro a b hab
    simp only at hab
    exact Nat.eq_of_mul_eq_mul_left (Nat.two_pow_pos d) (by omega)
  have himg : (Finset.range (2 ^ g)).filter (fun i => lowBits d i = sg) =
      (Finset.range (2 ^ (g - d))).image (fun j => sg + 2 ^ d * j) := by
    ext i
    simp only [Finset.mem_filter, Finset.mem_range, Finset.mem_image]
    constructor
    · rintro ⟨hi, hlow⟩
      refine ⟨i / 2 ^ d, ?_, ?_⟩
      · apply Nat.div_lt_of_lt_mul
        have : (2 : Nat) ^ d * 2 ^ (g - d) = 2 ^ g := by
          rw [← pow_add]
          congr 1
          omega
        omega
      · rw [← hlow, lowBits]
        exact (Nat.mod_add_div i (2 ^ d))
    · rintro ⟨j, hj, rfl⟩
      have hpow : (2 : Nat) ^ d * 2 ^ (g - d) = 2 ^ g := by
        rw [← pow_add]
        congr 1
        omega
      refine ⟨?_, ?_⟩
      · have h1 : 2 ^ d * (j + 1) ≤ 2 ^ d * 2 ^ (g - d) :=
          Nat.mul_le_mul_left _ (by omega)
        have h2 : 2 ^ d * (j + 1) = 2 ^ d * j + 2 ^ d := by ring
        omega
      · rw [lowBits, Nat.add_mul_mod_self_left]
        exact Nat.mod_eq_of_lt hsg
  rw [himg, Finset.card_image_of_injective _ hinj, Finset.card_range]

/-! ### List access helpers -/

theorem getD_append_left {α : Type} {l l' : List α} {i : Nat}
    (h : i < l.length) (d : α) : (l ++ l').getD i d = l.getD i d := by
  simp [List.getD_eq_getElem?_getD, List.getElem?_append_left h]

theorem getD_append_right {α : Type} {l l' : List α} {i : Nat}
    (h : l.length ≤ i) (d : α) : (l ++ l').getD i d = l'.getD (i - l.length) d := by
  simp [List.getD_eq_getElem?_getD, List.getElem?_append_right h]

theorem getD_set_eq {α : Type} {l : List α} {i : Nat} (h : i < l.length)
    (a d : α) : (l.set i a).getD i d = a := by
  simp [List.getD_eq_getElem?_getD, List.getElem?_set_self h]

theorem getD_set_ne {α : Type} {l : List α} {i j : Nat} (h : i ≠ j) (a d : α) :
    (l.set i a).getD j d = l.getD j d := by
  simp [List.getD_eq_getElem?_getD, List.getElem?_set_ne h]

theorem getD_set_append {α : Type} {l : List α} {i : Nat} (hi : i < l.length)
    {j : Nat} (hj : j < l.length + 1) (b x d : α) :
    ((l.set i b) ++ [x]).getD j d =
      if j = l.length then x else if j = i then b else l.getD j d := by
  by_cases hjl : j < l.length
  · rw [getD_append_left (by simpa using hjl), if_neg (by omega)]
    by_cases hji : j = i
    · subst hji
      rw [if_pos rfl, getD_set_eq hjl]
    · rw [if_neg hji, getD_set_ne (fun hcon => hji hcon.symm)]
  · have hj' : j = l.length := by omega
    subst hj'
    rw [getD_append_right (by simp)]
    simp

theorem getD_redirect {K V : Type} (s : EHT K V) (dep lb nid : Nat) {i : Nat}
    (h : i < s.dir.length) :
    (redirect s dep lb nid).getD i 0 =
      if testKBit dep i && decide (lowBits dep i = lb) then nid
      else s.dir.getD i 0 := by
  rw [redirect]
  simp [List.getD_eq_getElem?_getD, List.getElem?_range h]

theorem length_redirect {K V : Type} (s : EHT K V) (dep lb nid : Nat) :
    (redirect s dep lb nid).length = s.dir.length := by
  simp [redirect]

/-! ### Lookup helpers for bucket lists with unique keys -/

section FindHelpers

variable {K V : Type} [DecidableEq K]

theorem find?_append_cons_pos {α : Type} {p : α → Bool} {l₁ l₂ : List α} {x : α}
    (h : ∀ y ∈ l₁, p y = false) (hx : p x = true) :
    (l₁ ++ x :: l₂).find? p = some x := by
  rw [List.find?_append, List.find?_eq_none.mpr (by intro y hy; simp [h y hy]),
    List.find?_cons_of_pos _ hx]
  rfl

theorem find?_append_cons_neg {α : Type} {p : α → Bool} (l₁ l₂ : List α) {x : α}
    (hx : p x = false) :
    (l₁ ++ x :: l₂).find? p = (l₁ ++ l₂).find? p := by
  rw [List.find?_append, List.find?_append, List.find?_cons_of_neg _ (by simp [hx])]

theorem find?_keyEq_of_mem {l : List (K × V)} {key : K} {p : K × V}
    (hnd : (l.map Prod.fst).Nodup) (hp : p ∈ l) (hk : p.1 = key) :
    l.find? (keyEq key) = some p := by
  induction l with
  | nil => cases hp
  | cons q tl ih =>
    by_cases hq : q.1 = key
    · rw [List.find?_cons_of_pos _ (by simp [keyEq, hq])]
      rcases List.mem_cons.mp hp with rfl | hp'
      · rfl
      · exfalso
        have hmm : p.1 ∈ tl.map Prod.fst := List.mem_map_of_mem _ hp'
        have hnotin := (List.nodup_cons.mp hnd).1
        rw [hk, ← hq] at hmm
        exact hnotin hmm
    · rw [List.find?_cons_of_neg _ (by simp [keyEq, hq])]
      rcases List.mem_cons.mp hp with rfl | hp'
      · exact absurd hk hq
      · exact ih (List.nodup_cons.mp hnd).2 hp'

theorem mem_of_findVal_some {b : Bucket K V} {key : K} {v : V}
    (h : Bucket.findVal b key = some v) : (key, v) ∈ b.list := by
  rw [Bucket.findVal] at h
  rcases hf : b.list.find? (keyEq key) with _ | p
  · rw [hf] at h
    cases h
  · rw [hf] at h
    simp only [Option.map] at h
    injection h with h
    subst h
    have hmem := List.mem_of_find?_eq_some hf
    have hkey : p.1 = key := by simpa [keyEq] using List.find?_some hf
    have hpe : (key, p.2) = p := by rw [← hkey]
    exact hpe ▸ hmem

theorem findVal_eq_none {b : Bucket K V} {key : K}
    (h : ∀ p ∈ b.list, p.1 ≠ key) : Bucket.findVal b key = none := by
  rw [Bucket.findVal, List.find?_eq_none.mpr]
  · rfl
  · intro p hp
    simp [keyEq, h p hp]

theorem findVal_some_of_mem {b : Bucket K V} {key : K} {v : V}
    (hnd : (b.list.map Prod.fst).Nodup) (hmem : (key, v) ∈ b.list) :
    Bucket.findVal b key = some v := by
  rw [Bucket.findVal, find?_keyEq_of_mem hnd hmem rfl]
  rfl

/-- Two buckets with duplicate-free keys that contain the same pairs for a
given key have the same lookup result for that key. -/
theorem findVal_congr {b b' : Bucket K V} {key : K}
    (hnd : (b.list.map Prod.fst).Nodup) (hnd' : (b'.list.map Prod.fst).Nodup)
    (hiff : ∀ v : V, (key, v) ∈ b.list ↔ (key, v) ∈ b'.list) :
    Bucket.findVal b key = Bucket.findVal b' key := by
  rcases hf : Bucket.findVal b key with _ | v
  · rcases hf' : Bucket.findVal b' key with _ | v'
    · rfl
    · exfalso
      have hmem' := mem_of_findVal_some hf'
      have hmem := (hiff v').mpr hmem'
      rw [findVal_some_of_mem hnd hmem] at hf
      cases hf
  · rw [findVal_some_of_mem hnd' ((hiff v).mp (mem_of_findVal_some hf))]

theorem keys_updFirst (key : K) (v : V) (l : List (K × V)) :
    (updFirst (keyEq key) (fun p => (p.1, v)) l).map Prod.fst = l.map Prod.fst := by
  induction l with
  | nil => rfl
  | cons q tl ih =>
    by_cases hq : keyEq key q = true
    · simp [updFirst, hq]
    · have hq' : keyEq key q = false := by simpa using hq
      simp [updFirst, hq', ih]

end FindHelpers

section WFDef

variable {K V : Type} [DecidableEq K] (hash : K → Nat)

/-- The structural invariant of the extendible hash table, as maintained by
the source (§3.2 of the spec): the directory has `2 ^ global_depth` slots,
slot entries are valid bucket indices, `num_buckets_` counts the store,
buckets respect the capacity and have duplicate-free keys, local depths are
bounded by the global depth, and every bucket has a signature `sg` such that
its slots are exactly those whose low `depth` bits equal `sg` and its items
hash to `sg` on the low `depth` bits. -/
structure WF (s : EHT K V) : Prop where
  dirLen : s.dir.length = 2 ^ s.globalDepth
  dirValid : ∀ i < s.dir.length, s.dir.getD i 0 < s.buckets.length
  numB : s.numBuckets = s.buckets.length
  bsize : ∀ bid < s.buckets.length, (s.buckets.getD bid default).size = s.bucketSize
  caple : ∀ bid < s.buckets.length,
    (s.buckets.getD bid default).list.length ≤ s.bucketSize
  nodupKeys : ∀ bid < s.buckets.length,
    ((s.buckets.getD bid default).list.map Prod.fst).Nodup
  depthLe : ∀ bid < s.buckets.length,
    (s.buckets.getD bid default).depth ≤ s.globalDepth
  sig : ∀ bid < s.buckets.length, ∃ sg < 2 ^ (s.buckets.getD bid default).depth,
    (∀ i < s.dir.length,
      (s.dir.getD i 0 = bid ↔ lowBits (s.buckets.getD bid default).depth i = sg)) ∧
    ∀ x ∈ (s.buckets.getD bid default).list.map Prod.fst,
      lowBits (s.buckets.getD bid default).depth (hash x) = sg

theorem wf_init (cap : Nat) : WF hash (initTable cap : EHT K V) := by
  refine ⟨rfl, ?_, rfl, ?_, ?_, ?_, ?_, ?_⟩
  · intro i hi
    have : i = 0 := by simpa [initTable] using hi
    subst this
    simp [initTable]
  · intro bid hbid
    have : bid = 0 := by simpa [initTable] using hbid
    subst this
    rfl
  · intro bid hbid
    have : bid = 0 := by simpa [initTable] using hbid
    subst this
    simp [initTable]
  · intro bid hbid
    have : bid = 0 := by simpa [initTable] using hbid
    subst this
    simp [initTable]
  · intro bid hbid
    have : bid = 0 := by simpa [initTable] using hbid
    subst this
    simp [initTable]
  · intro bid hbid
    have : bid = 0 := by simpa [initTable] using hbid
    subst this
    refine ⟨0, by simp [initTable], ?_, ?_⟩
    · intro i hi
      have : i = 0 := by simpa [initTable] using hi
      subst this
      simp [initTable, lowBits]
    · intro x hx
      simp [initTable] at hx

/-- Every item of a bucket is stored exactly at its own hash slot. -/
theorem dir_slot_of_mem {s : EHT K V} (hW : WF hash s) {bid : Nat}
    (hbid : bid < s.buckets.length) {x : K}
    (hx : x ∈ (s.buckets.getD bid default).list.map Prod.fst) :
    s.dir.getD (lowBits s.globalDepth (hash x)) 0 = bid := by
  obtain ⟨sg, hsg, hslots, hitems⟩ := hW.sig bid hbid
  have hd := hW.depthLe bid hbid
  have hi : lowBits s.globalDepth (hash x) < s.dir.length := by
    rw [hW.dirLen]
    exact lowBits_lt _ _
  refine (hslots _ hi).mpr ?_
  rw [lowBits_lowBits hd]
  exact hitems x hx

theorem length_updFirst {α : Type} (p : α → Bool) (f : α → α) (l : List α) :
    (updFirst p f l).length = l.length := by
  induction l with
  | nil => rfl
  | cons a tl ih =>
    by_cases hp : p a = true
    · simp [updFirst, hp]
    · have hp' : p a = false := by simpa using hp
      simp [updFirst, hp', ih]

/-- The item-moving loop fully characterised: when the moved items fit, the
old list keeps exactly the items whose relevant hash bit is clear, and the
new bucket holds the moved ones (reversed by the repeated `emplace_front`). -/
theorem moveLoop_spec (d : Nat) (l : List (K × V)) (nb : Bucket K V)
    (hcap : l.countP (fun p => testKBit d (hash p.1)) + nb.list.length ≤ nb.size)
    (hdisj : ∀ p ∈ l, nb.list.find? (keyEq p.1) = none)
    (hnd : (l.map Prod.fst).Nodup) :
    moveLoop hash d l nb = some
      (l.filter (fun p => !(testKBit d (hash p.1))),
       ⟨nb.size, nb.depth,
         (l.filter (fun p => testKBit d (hash p.1))).reverse ++ nb.list⟩) := by
  induction l generalizing nb with
  | nil => rfl
  | cons p rest ih =>
    rw [moveLoop]
    by_cases hbit : testKBit d (hash p.1) = true
    · rw [if_pos hbit]
      have hcnt : rest.countP (fun q => testKBit d (hash q.1)) + (nb.list.length + 1) ≤ nb.size := by
        have := hcap
        rw [List.countP_cons, if_pos (by simpa using hbit)] at this
        omega
      have hnotfull : nb.isFull = false := by
        rw [Bucket.isFull]
        simp only [decide_eq_false_iff_not, not_le]
        omega
      rw [if_neg (by simp [hnotfull])]
      have hinsert : Bucket.insertPair nb p.1 p.2 =
          some { nb with list := (p.1, p.2) :: nb.list } := by
        rw [Bucket.insertPair, hdisj p (by simp), if_neg (by simp [hnotfull])]
      rw [hinsert]
      simp only [Option.getD_some]
      have ihr := ih { nb with list := (p.1, p.2) :: nb.list }
        (by simpa using hcnt)
        (by
          intro q hq
          have hq1 : ¬ (p.1 = q.1) := by
            intro hcon
            apply (List.nodup_cons.mp hnd).1
            rw [hcon]
            exact List.mem_map_of_mem _ hq
          rw [List.find?_cons_of_neg _ (by simp [keyEq, hq1])]
          exact hdisj q (List.mem_cons_of_mem _ hq))
        (List.nodup_cons.mp hnd).2
      rw [ihr]
      simp [List.filter_cons, hbit]
    · have hbit' : testKBit d (hash p.1) = false := by simpa using hbit
      rw [if_neg (by simp [hbit'])]
      have ihr := ih nb
        (by
          have := hcap
          rw [List.countP_cons, if_neg (by simp [hbit'])] at this
          omega)
        (fun q hq => hdisj q (List.mem_cons_of_mem _ hq))
        (List.nodup_cons.mp hnd).2
      rw [ihr]
      simp [List.filter_cons, hbit']

theorem findT_eq (s : EHT K V) (key : K) :
    findT hash s key =
      Bucket.findVal
        (s.buckets.getD (s.dir.getD (lowBits s.globalDepth (hash key)) 0) default)
        key := rfl

/-- Replacing one bucket by a bucket of the same shape whose keys either come
from the old bucket or are routed to this slot preserves the invariant. -/
theorem wf_set_bucket {s : EHT K V} (hW : WF hash s) {bid : Nat}
    (hbid : bid < s.buckets.length) {b' : Bucket K V}
    (hsize : b'.size = (s.buckets.getD bid default).size)
    (hdepth : b'.depth = (s.buckets.getD bid default).depth)
    (hlen : b'.list.length ≤ s.bucketSize)
    (hnd : (b'.list.map Prod.fst).Nodup)
    (hkeys : ∀ x ∈ b'.list.map Prod.fst,
      x ∈ (s.buckets.getD bid default).list.map Prod.fst ∨
        s.dir.getD (lowBits s.globalDepth (hash x)) 0 = bid) :
    WF hash { s with buckets := s.buckets.set bid b' } := by
  refine ⟨hW.dirLen, ?_, ?_, ?_, ?_, ?_, ?_, ?_⟩
  · intro i hi
    rw [List.length_set]
    exact hW.dirValid i hi
  · rw [List.length_set]
    exact hW.numB
  · intro bid2 hbid2
    rw [List.length_set] at hbid2
    by_cases he : bid = bid2
    · subst he
      rw [getD_set_eq hbid, hsize]
      exact hW.bsize bid hbid
    · rw [getD_set_ne he]
      exact hW.bsize bid2 hbid2
  · intro bid2 hbid2
    rw [List.length_set] at hbid2
    by_cases he : bid = bid2
    · subst he
      rw [getD_set_eq hbid]
      exact hlen
    · rw [getD_set_ne he]
      exact hW.caple bid2 hbid2
  · intro bid2 hbid2
    rw [List.length_set] at hbid2
    by_cases he : bid = bid2
    · subst he
      rw [getD_set_eq hbid]
      exact hnd
    · rw [getD_set_ne he]
      exact hW.nodupKeys bid2 hbid2
  · intro bid2 hbid2
    rw [List.length_set] at hbid2
    by_cases he : bid = bid2
    · subst he
      rw [getD_set_eq hbid, hdepth]
      exact hW.depthLe bid hbid
    · rw [getD_set_ne he]
      exact hW.depthLe bid2 hbid2
  · intro bid2 hbid2
    rw [List.length_set] at hbid2
    by_cases he : bid = bid2
    · subst he
      obtain ⟨sg, hsg, hslots, hitems⟩ := hW.sig bid hbid
      rw [getD_set_eq hbid, hdepth]
      refine ⟨sg, hsg, hslots, ?_⟩
      intro x hx
      rcases hkeys x hx with hold | hslot
      · exact hitems x hold
      · have hi : lowBits s.globalDepth (hash x) < s.dir.length := by
          rw [hW.dirLen]
          exact lowBits_lt _ _
        have := (hslots _ hi).mp hslot
        rw [← lowBits_lowBits (hW.depthLe bid hbid) (hash x)]
        exact this
    · obtain ⟨sg, hsg, hslots, hitems⟩ := hW.sig bid2 hbid2
      rw [getD_set_ne he]
      exact ⟨sg, hsg, hslots, hitems⟩

/-- A successful `Bucket::Insert` at the key's own slot: the invariant is
preserved and `Find` afterwards behaves like a map update. -/
theorem wf_find_set_insert {s : EHT K V} (hW : WF hash s) {key : K} {val : V}
    {bid : Nat} (hbid : bid = s.dir.getD (lowBits s.globalDepth (hash key)) 0)
    {b' : Bucket K V}
    (hins : Bucket.insertPair (s.buckets.getD bid default) key val = some b') :
    WF hash { s with buckets := s.buckets.set bid b' } ∧
    ∀ key' : K, findT hash { s with buckets := s.buckets.set bid b' } key' =
      if key' = key then some val else findT hash s key' := by
  have hslot : lowBits s.globalDepth (hash key) < s.dir.length := by
    rw [hW.dirLen]
    exact lowBits_lt _ _
  have hbidlt : bid < s.buckets.length := hbid ▸ hW.dirValid _ hslot
  have hndb := hW.nodupKeys bid hbidlt
  rcases hf : (s.buckets.getD bid default).list.find? (keyEq key) with _ | p
  · -- key absent: push front
    rw [Bucket.insertPair, hf] at hins
    by_cases hfull : (s.buckets.getD bid default).isFull = true
    · rw [if_pos hfull] at hins
      cases hins
    · rw [if_neg hfull, Option.some.injEq] at hins
      have hlen : (s.buckets.getD bid default).list.length <
          (s.buckets.getD bid default).size := by
        rw [Bucket.isFull] at hfull
        simpa using hfull
      have hnotin : ∀ q ∈ (s.buckets.getD bid default).list, q.1 ≠ key := by
        intro q hq hcon
        have := List.find?_eq_none.mp hf q hq
        simp [keyEq, hcon] at this
      have hb' : b'.list = (key, val) :: (s.buckets.getD bid default).list := by
        rw [← hins]
      constructor
      · refine wf_set_bucket hash hW hbidlt ?_ ?_ ?_ ?_ ?_
        · rw [← hins]
        · rw [← hins]
        · rw [hb', List.length_cons]
          have := hW.bsize bid hbidlt
          omega
        · rw [hb']
          refine List.nodup_cons.mpr ⟨?_, hndb⟩
          intro hcon
          obtain ⟨q, hq, hqk⟩ := List.mem_map.mp hcon
          exact hnotin q hq hqk
        · intro x hx
          rw [hb'] at hx
          simp only [List.map_cons, List.mem_cons] at hx
          rcases hx with rfl | hx
          · exact Or.inr hbid.symm
          · exact Or.inl hx
      · intro key'
        by_cases hk : key' = key
        · subst hk
          rw [if_pos rfl, findT_eq]
          have : ({ s with buckets := s.buckets.set bid b' }).dir.getD
              (lowBits s.globalDepth (hash key')) 0 = bid := hbid.symm
          rw [this, getD_set_eq hbidlt, Bucket.findVal, hb',
            List.find?_cons_of_pos _ (by simp [keyEq])]
          rfl
        · rw [if_neg hk, findT_eq, findT_eq]
          by_cases hsame : s.dir.getD (lowBits s.globalDepth (hash key')) 0 = bid
          · rw [hsame, getD_set_eq hbidlt, Bucket.findVal, Bucket.findVal, hb',
              List.find?_cons_of_neg _ (by simp [keyEq]; exact fun hcon => hk hcon.symm)]
          · rw [getD_set_ne (fun hcon => hsame hcon.symm)]
  · -- key present: update in place
    rw [Bucket.insertPair, hf, Option.some.injEq] at hins
    obtain ⟨l₁, l₂, hdec, hpref, hpk⟩ := find?_split hf
    have hpk' : p.1 = key := by simpa [keyEq] using hpk
    have hb' : b'.list = l₁ ++ (p.1, val) :: l₂ := by
      rw [← hins]
      exact hdec ▸ updFirst_append_of_forall _ _ _ _ hpref _ hpk
    constructor
    · refine wf_set_bucket hash hW hbidlt ?_ ?_ ?_ ?_ ?_
      · rw [← hins]
      · rw [← hins]
      · rw [← hins, length_updFirst]
        exact hW.caple bid hbidlt
      · rw [← hins, keys_updFirst]
        exact hndb
      · intro x hx
        rw [← hins, keys_updFirst] at hx
        exact Or.inl hx
    · intro key'
      by_cases hk : key' = key
      · subst hk
        rw [if_pos rfl, findT_eq]
        have hdir : ({ s with buckets := s.buckets.set bid b' }).dir.getD
            (lowBits s.globalDepth (hash key')) 0 = bid := hbid.symm
        rw [hdir, getD_set_eq hbidlt, Bucket.findVal, hb',
          find?_append_cons_pos (by
            intro y hy
            exact hpref y hy) (by simp [keyEq, hpk'])]
        rfl
      · rw [if_neg hk, findT_eq, findT_eq]
        by_cases hsame : s.dir.getD (lowBits s.globalDepth (hash key')) 0 = bid
        · rw [hsame, getD_set_eq hbidlt, Bucket.findVal, Bucket.findVal, hb', hdec,
            find?_append_cons_neg _ _ (by simp [keyEq, hpk']; exact fun hcon => hk hcon.symm),
            find?_append_cons_neg _ _ (by simp [keyEq, hpk']; exact fun hcon => hk hcon.symm)]
        · rw [getD_set_ne (fun hcon => hsame hcon.symm)]

/-- Directory doubling: the invariant is preserved, every hash value keeps
its slot's bucket, and `Find` is unchanged. -/
theorem wf_find_double {s : EHT K V} (hW : WF hash s) :
    WF hash { s with dir := s.dir ++ s.dir, globalDepth := s.globalDepth + 1 } ∧
    (∀ h : Nat, (s.dir ++ s.dir).getD (lowBits (s.globalDepth + 1) h) 0 =
      s.dir.getD (lowBits s.globalDepth h) 0) ∧
    (∀ key' : K,
      findT hash { s with dir := s.dir ++ s.dir, globalDepth := s.globalDepth + 1 } key' =
        findT hash s key') := by
  have hslotpres : ∀ h : Nat,
      (s.dir ++ s.dir).getD (lowBits (s.globalDepth + 1) h) 0 =
        s.dir.getD (lowBits s.globalDepth h) 0 := by
    intro h
    rw [lowBits_succ]
    by_cases hb : testKBit s.globalDepth h = true
    · rw [if_pos hb, getD_append_right (by rw [hW.dirLen]; omega)]
      congr 1
      rw [hW.dirLen]
      omega
    · rw [if_neg hb]
      rw [Nat.add_zero, getD_append_left (by rw [hW.dirLen]; exact lowBits_lt _ _)]
  refine ⟨?_, hslotpres, ?_⟩
  · refine ⟨?_, ?_, hW.numB, hW.bsize, hW.caple, hW.nodupKeys, ?_, ?_⟩
    · rw [List.length_append, hW.dirLen]
      ring
    · intro i hi
      rw [List.length_append] at hi
      by_cases hil : i < s.dir.length
      · rw [getD_append_left hil]
        exact hW.dirValid i hil
      · rw [getD_append_right (by omega)]
        exact hW.dirValid _ (by omega)
    · intro bid hbid
      exact Nat.le_succ_of_le (hW.depthLe bid hbid)
    · intro bid hbid
      obtain ⟨sg, hsg, hslots, hitems⟩ := hW.sig bid hbid
      refine ⟨sg, hsg, ?_, hitems⟩
      intro i hi
      rw [List.length_append] at hi
      by_cases hil : i < s.dir.length
      · rw [getD_append_left hil]
        exact hslots i hil
      · rw [getD_append_right (by omega)]
        have hiff := hslots (i - s.dir.length) (by omega)
        rw [hiff]
        have hd := hW.depthLe bid hbid
        have : lowBits (s.buckets.getD bid default).depth (i - s.dir.length) =
            lowBits (s.buckets.getD bid default).depth i := by
          have hrw : i = (i - s.dir.length) + 2 ^ s.globalDepth := by
            rw [← hW.dirLen]
            omega
          rw [hrw, lowBits_add_pow hd]
          congr 1
          omega
        rw [this]
  · intro key'
    rw [findT_eq, findT_eq]
    have := hslotpres (hash key')
    rw [this]

/-- RedistributeBucket on a full bucket whose depth is strictly below the
global depth: the split succeeds, preserves the invariant and `Find`, raises
the depth of the bucket serving the affected slots, and introduces no new
keys. -/
theorem wf_find_redistribute {s : EHT K V} (hW : WF hash s) {bid : Nat}
    (hbid : bid < s.buckets.length)
    (hdlt : (s.buckets.getD bid default).depth < s.globalDepth)
    (hfull : s.bucketSize ≤ (s.buckets.getD bid default).list.length)
    (hpos : 1 ≤ s.bucketSize) :
    ∃ s₂, redistribute hash s bid = some s₂ ∧ WF hash s₂ ∧
      s₂.globalDepth = s.globalDepth ∧ s₂.bucketSize = s.bucketSize ∧
      (∀ key' : K, findT hash s₂ key' = findT hash s key') ∧
      (∀ i < s.dir.length, s.dir.getD i 0 = bid →
        (s₂.buckets.getD (s₂.dir.getD i 0) default).depth =
          (s.buckets.getD bid default).depth + 1) ∧
      (∀ bid2 < s₂.buckets.length,
        ∀ x ∈ (s₂.buckets.getD bid2 default).list.map Prod.fst,
          ∃ bid3 < s.buckets.length,
            x ∈ (s.buckets.getD bid3 default).list.map Prod.fst) := by
  obtain ⟨sg, hsg, hslots, hitems⟩ := hW.sig bid hbid
  have hndb := hW.nodupKeys bid hbid
  have hlen : (s.buckets.getD bid default).list.length = s.bucketSize :=
    Nat.le_antisymm (hW.caple bid hbid) hfull
  obtain ⟨item0, rest0, hcons⟩ :
      ∃ it rest, (s.buckets.getD bid default).list = it :: rest := by
    rcases hl : (s.buckets.getD bid default).list with _ | ⟨it, rest⟩
    · rw [hl] at hlen
      simp at hlen
      omega
    · exact ⟨it, rest, rfl⟩
  have hhead : (s.buckets.getD bid default).list.head? = some item0 := by
    rw [hcons]
    rfl
  have hlowbit :
      lowBits (s.buckets.getD bid default).depth (hash item0.1) = sg :=
    hitems item0.1 (by rw [hcons]; simp)
  have hml := moveLoop_spec hash (s.buckets.getD bid default).depth
    (s.buckets.getD bid default).list
    ⟨s.bucketSize, (s.buckets.getD bid default).depth + 1, []⟩
    (by
      have := List.countP_le_length
        (p := fun p : K × V => testKBit (s.buckets.getD bid default).depth (hash p.1))
        (l := (s.buckets.getD bid default).list)
      simp only [List.length_nil]
      omega)
    (by intro p hp; rfl)
    hndb
  rw [List.append_nil] at hml
  have hred : redistribute hash s bid = some ⟨s.globalDepth, s.bucketSize,
      s.numBuckets + 1,
      redirect s (s.buckets.getD bid default).depth sg s.buckets.length,
      (s.buckets.set bid
        ⟨(s.buckets.getD bid default).size, (s.buckets.getD bid default).depth + 1,
          (s.buckets.getD bid default).list.filter
            (fun p => !(testKBit (s.buckets.getD bid default).depth (hash p.1)))⟩) ++
        [⟨s.bucketSize, (s.buckets.getD bid default).depth + 1,
          ((s.buckets.getD bid default).list.filter
            (fun p => testKBit (s.buckets.getD bid default).depth (hash p.1))).reverse⟩]⟩ := by
    unfold redistribute
    dsimp only
    rw [hhead]
    dsimp only
    rw [hlowbit, hml]
  set dep := (s.buckets.getD bid default).depth with hdep
  set rem := (s.buckets.getD bid default).list.filter
    (fun p => !(testKBit dep (hash p.1))) with hremdef
  set mvd := (s.buckets.getD bid default).list.filter
    (fun p => testKBit dep (hash p.1)) with hmvddef
  set oldb : Bucket K V :=
    ⟨(s.buckets.getD bid default).size, dep + 1, rem⟩ with holdb
  set newb : Bucket K V := ⟨s.bucketSize, dep + 1, mvd.reverse⟩ with hnewb
  have hdg : dep < s.globalDepth := hdlt
  have hsg1 : sg < 2 ^ (dep + 1) :=
    lt_of_lt_of_le hsg (Nat.pow_le_pow_right (by norm_num) (Nat.le_succ _))
  have hB : ∀ j, j < s.buckets.length + 1 →
      ((s.buckets.set bid oldb ++ [newb]).getD j default) =
        if j = s.buckets.length then newb
        else if j = bid then oldb else s.buckets.getD j default := by
    intro j hj
    exact getD_set_append hbid hj _ _ _
  have hBlen : (s.buckets.set bid oldb ++ [newb]).length = s.buckets.length + 1 := by
    simp
  have hDlen : (redirect s dep sg s.buckets.length).length = s.dir.length :=
    length_redirect s _ _ _
  have hndrem : (rem.map Prod.fst).Nodup :=
    List.Nodup.sublist (List.Sublist.map _ (List.filter_sublist _)) hndb
  have hndmvd : (mvd.reverse.map Prod.fst).Nodup := by
    rw [List.map_reverse]
    exact List.nodup_reverse.mpr
      (List.Nodup.sublist (List.Sublist.map _ (List.filter_sublist _)) hndb)
  have hD : ∀ i, i < s.dir.length →
      (redirect s dep sg s.buckets.length).getD i 0 =
        if testKBit dep i && decide (lowBits dep i = sg) then s.buckets.length
        else s.dir.getD i 0 := by
    intro i hi
    exact getD_redirect s _ _ _ hi
  refine ⟨_, hred, ⟨?_, ?_, ?_, ?_, ?_, ?_, ?_, ?_⟩, rfl, rfl, ?_, ?_, ?_⟩
  · -- dirLen
    exact hDlen.trans hW.dirLen
  · -- dirValid
    intro i hi
    rw [hDlen] at hi
    rw [hD i hi, hBlen]
    by_cases hc : (testKBit dep i && decide (lowBits dep i = sg)) = true
    · rw [if_pos hc]
      omega
    · rw [if_neg hc]
      have := hW.dirValid i hi
      omega
  · -- numB
    rw [hBlen, hW.numB]
  · -- bsize
    intro j hj
    rw [hBlen] at hj
    rw [hB j hj]
    by_cases hj1 : j = s.buckets.length
    · rw [if_pos hj1]
    · rw [if_neg hj1]
      by_cases hj2 : j = bid
      · rw [if_pos hj2, holdb]
        exact hW.bsize bid hbid
      · rw [if_neg hj2]
        exact hW.bsize j (by omega)
  · -- caple
    intro j hj
    rw [hBlen] at hj
    rw [hB j hj]
    by_cases hj1 : j = s.buckets.length
    · rw [if_pos hj1, hnewb]
      have h1 := List.length_filter_le
        (fun p : K × V => testKBit dep (hash p.1)) (s.buckets.getD bid default).list
      simp only [List.length_reverse]
      rw [hmvddef]
      omega
    · rw [if_neg hj1]
      by_cases hj2 : j = bid
      · rw [if_pos hj2, holdb]
        have h1 := List.length_filter_le
          (fun p : K × V => !(testKBit dep (hash p.1))) (s.buckets.getD bid default).list
        rw [hremdef]
        simp only
        omega
      · rw [if_neg hj2]
        exact hW.caple j (by omega)
  · -- nodupKeys
    intro j hj
    rw [hBlen] at hj
    rw [hB j hj]
    by_cases hj1 : j = s.buckets.length
    · rw [if_pos hj1]
      exact hndmvd
    · rw [if_neg hj1]
      by_cases hj2 : j = bid
      · rw [if_pos hj2]
        exact hndrem
      · rw [if_neg hj2]
        exact hW.nodupKeys j (by omega)
  · -- depthLe
    intro j hj
    rw [hBlen] at hj
    rw [hB j hj]
    by_cases hj1 : j = s.buckets.length
    · rw [if_pos hj1]
      show dep + 1 ≤ s.globalDepth
      omega
    · rw [if_neg hj1]
      by_cases hj2 : j = bid
      · rw [if_pos hj2]
        show dep + 1 ≤ s.globalDepth
        omega
      · rw [if_neg hj2]
        exact hW.depthLe j (by omega)
  · -- sig
    intro j hj
    rw [hBlen] at hj
    rw [hB j hj]
    by_cases hj1 : j = s.buckets.length
    · -- the new sibling bucket
      rw [if_pos hj1, hnewb]
      refine ⟨sg + 2 ^ dep, ?_, ?_, ?_⟩
      · show sg + 2 ^ dep < 2 ^ (dep + 1)
        have : (2 : Nat) ^ (dep + 1) = 2 ^ dep * 2 := by ring
        omega
      · intro i hi
        rw [hDlen] at hi
        rw [hD i hi]
        subst hj1
        by_cases hc : (testKBit dep i && decide (lowBits dep i = sg)) = true
        · rw [if_pos hc]
          simp only [Bool.and_eq_true, decide_eq_true_eq] at hc
          simp only [true_iff]
          exact (lowBits_succ_eq_iff_high hsg i).mpr ⟨hc.2, hc.1⟩
        · rw [if_neg hc]
          simp only [Bool.and_eq_true, decide_eq_true_eq] at hc
          constructor
          · intro hcon
            exact absurd (hW.dirValid i hi) (by omega)
          · intro hlow
            obtain ⟨h1, h2⟩ := (lowBits_succ_eq_iff_high hsg i).mp hlow
            exact absurd ⟨h2, h1⟩ hc
      · intro x hx
        simp only [List.map_reverse, List.mem_reverse] at hx
        obtain ⟨p, hp, rfl⟩ := List.mem_map.mp hx
        rw [hmvddef] at hp
        obtain ⟨hpl, hpb⟩ := List.mem_filter.mp hp
        exact (lowBits_succ_eq_iff_high hsg _).mpr
          ⟨hitems p.1 (List.mem_map_of_mem _ hpl), hpb⟩
    · rw [if_neg hj1]
      by_cases hj2 : j = bid
      · -- the split bucket keeps the low half
        rw [if_pos hj2, holdb]
        refine ⟨sg, hsg1, ?_, ?_⟩
        · intro i hi
          rw [hDlen] at hi
          rw [hD i hi]
          subst hj2
          by_cases hc : (testKBit dep i && decide (lowBits dep i = sg)) = true
          · rw [if_pos hc]
            simp only [Bool.and_eq_true, decide_eq_true_eq] at hc
            constructor
            · intro hcon
              omega
            · intro hlow
              obtain ⟨h1, h2⟩ := (lowBits_succ_eq_iff_low hsg i).mp hlow
              rw [hc.1] at h2
              cases h2
          · rw [if_neg hc]
            simp only [Bool.and_eq_true, decide_eq_true_eq] at hc
            rw [hslots i hi]
            constructor
            · intro hlow
              refine (lowBits_succ_eq_iff_low hsg i).mpr ⟨hlow, ?_⟩
              by_cases hb : testKBit dep i = true
              · exact absurd ⟨hb, hlow⟩ hc
              · simpa using hb
            · intro hlow
              exact ((lowBits_succ_eq_iff_low hsg i).mp hlow).1
        · intro x hx
          obtain ⟨p, hp, rfl⟩ := List.mem_map.mp hx
          rw [hremdef] at hp
          obtain ⟨hpl, hpb⟩ := List.mem_filter.mp hp
          refine (lowBits_succ_eq_iff_low hsg _).mpr
            ⟨hitems p.1 (List.mem_map_of_mem _ hpl), by simpa using hpb⟩
      · -- untouched buckets
        rw [if_neg hj2]
        have hjlt : j < s.buckets.length := by omega
        obtain ⟨sg2, hsg2, hslots2, hitems2⟩ := hW.sig j hjlt
        refine ⟨sg2, hsg2, ?_, hitems2⟩
        intro i hi
        rw [hDlen] at hi
        rw [hD i hi]
        by_cases hc : (testKBit dep i && decide (lowBits dep i = sg)) = true
        · rw [if_pos hc]
          simp only [Bool.and_eq_true, decide_eq_true_eq] at hc
          have hbidslot : s.dir.getD i 0 = bid := (hslots i hi).mpr hc.2
          constructor
          · intro hcon
            omega
          · intro hlow
            have : s.dir.getD i 0 = j := (hslots2 i hi).mpr hlow
            omega
        · rw [if_neg hc]
          exact hslots2 i hi
  · -- Find is preserved
    intro key'
    rw [findT_eq, findT_eq]
    simp only
    have hi' : lowBits s.globalDepth (hash key') < s.dir.length := by
      rw [hW.dirLen]
      exact lowBits_lt _ _
    rw [hD _ hi']
    by_cases hc : (testKBit dep (lowBits s.globalDepth (hash key')) &&
        decide (lowBits dep (lowBits s.globalDepth (hash key')) = sg)) = true
    · rw [if_pos hc]
      simp only [Bool.and_eq_true, decide_eq_true_eq] at hc
      have hold : s.dir.getD (lowBits s.globalDepth (hash key')) 0 = bid :=
        (hslots _ hi').mpr hc.2
      rw [hold, hB s.buckets.length (by omega), if_pos rfl]
      have hbit : testKBit dep (hash key') = true := by
        rw [← testKBit_lowBits hdg (hash key')]
        exact hc.1
      refine findVal_congr hndmvd (hW.nodupKeys bid hbid) ?_
      intro v
      rw [hnewb]
      simp only [List.mem_reverse]
      rw [hmvddef]
      rw [List.mem_filter]
      constructor
      · intro h
        exact h.1
      · intro h
        exact ⟨h, hbit⟩
    · rw [if_neg hc]
      by_cases hsame : s.dir.getD (lowBits s.globalDepth (hash key')) 0 = bid
      · rw [hsame, hB bid (by omega), if_neg (by omega), if_pos rfl]
        have hlow : lowBits dep (lowBits s.globalDepth (hash key')) = sg :=
          (hslots _ hi').mp hsame
        have hbit : testKBit dep (hash key') = false := by
          by_cases hb : testKBit dep (lowBits s.globalDepth (hash key')) = true
          · exact absurd (by simp [hb, hlow]) hc
          · rw [← testKBit_lowBits hdg (hash key')]
            simpa using hb
        refine findVal_congr hndrem (hW.nodupKeys bid hbid) ?_
        intro v
        rw [holdb]
        simp only
        rw [hremdef, List.mem_filter]
        constructor
        · intro h
          exact h.1
        · intro h
          exact ⟨h, by simp [hbit]⟩
      · have hval := hW.dirValid _ hi'
        rw [hB _ (by omega), if_neg (by omega), if_neg hsame]
  · -- slots previously served by the split bucket now see depth + 1
    intro i hi hslot
    simp only
    rw [hD i hi]
    have hlow : lowBits dep i = sg := (hslots i hi).mp hslot
    by_cases hb : testKBit dep i = true
    · rw [if_pos (by simp [hb, hlow]), hB s.buckets.length (by omega), if_pos rfl,
        hnewb]
    · rw [if_neg (by simp [hlow]; simpa using hb), hslot,
        hB bid (by omega), if_neg (by omega), if_pos rfl, holdb]
  · -- no new keys appear
    intro bid2 hbid2 x hx
    rw [hBlen] at hbid2
    rw [hB bid2 hbid2] at hx
    by_cases hj1 : bid2 = s.buckets.length
    · rw [if_pos hj1, hnewb] at hx
      simp only [List.map_reverse, List.mem_reverse] at hx
      obtain ⟨p, hp, rfl⟩ := List.mem_map.mp hx
      rw [hmvddef] at hp
      exact ⟨bid, hbid, List.mem_map_of_mem _ (List.mem_filter.mp hp).1⟩
    · rw [if_neg hj1] at hx
      by_cases hj2 : bid2 = bid
      · rw [if_pos hj2, holdb] at hx
        simp only at hx
        obtain ⟨p, hp, rfl⟩ := List.mem_map.mp hx
        rw [hremdef] at hp
        exact ⟨bid, hbid, List.mem_map_of_mem _ (List.mem_filter.mp hp).1⟩
      · rw [if_neg hj2] at hx
        exact ⟨bid2, by omega, hx⟩


/-- Remove preserves the invariant (buckets only lose items). -/
theorem wf_removeT {s : EHT K V} (hW : WF hash s) (key : K) :
    WF hash (removeT hash s key).2 := by
  rw [removeT]
  rcases hr : Bucket.removeKey
      (s.buckets.getD (s.dir.getD (indexOf hash s key) 0) default) key with _ | b'
  · exact hW
  · dsimp only
    rw [Bucket.removeKey] at hr
    rcases hf : (s.buckets.getD (s.dir.getD (indexOf hash s key) 0) default).list.find?
        (keyEq key) with _ | p
    · rw [hf] at hr
      cases hr
    · rw [hf, Option.some.injEq] at hr
      have hslot : indexOf hash s key < s.dir.length := by
        rw [hW.dirLen]
        exact lowBits_lt _ _
      have hbidlt : s.dir.getD (indexOf hash s key) 0 < s.buckets.length :=
        hW.dirValid _ hslot
      have hsz : b'.size =
          (s.buckets.getD (s.dir.getD (indexOf hash s key) 0) default).size := by
        rw [← hr]
      have hdp : b'.depth =
          (s.buckets.getD (s.dir.getD (indexOf hash s key) 0) default).depth := by
        rw [← hr]
      have hls : b'.list = List.eraseP (keyEq key)
          (s.buckets.getD (s.dir.getD (indexOf hash s key) 0) default).list := by
        rw [← hr]
      refine wf_set_bucket hash hW hbidlt hsz hdp ?_ ?_ ?_
      · rw [hls]
        have h1 : (List.eraseP (keyEq key)
            (s.buckets.getD (s.dir.getD (indexOf hash s key) 0) default).list).length ≤
            (s.buckets.getD (s.dir.getD (indexOf hash s key) 0) default).list.length :=
          List.Sublist.length_le (List.eraseP_sublist _)
        have h2 := hW.caple _ hbidlt
        omega
      · rw [hls]
        exact List.Nodup.sublist (List.Sublist.map _ (List.eraseP_sublist _))
          (hW.nodupKeys _ hbidlt)
      · intro x hx
        rw [hls] at hx
        exact Or.inl (List.Sublist.mem hx (List.Sublist.map _ (List.eraseP_sublist _)))

/-- When a bucket insert fails, the key is absent and the bucket is full. -/
theorem insertPair_none {b : Bucket K V} {key : K} {val : V}
    (h : Bucket.insertPair b key val = none) :
    b.list.find? (keyEq key) = none ∧ b.size ≤ b.list.length := by
  rw [Bucket.insertPair] at h
  rcases hf : b.list.find? (keyEq key) with _ | p
  · rw [hf] at h
    by_cases hfull : b.isFull = true
    · rw [Bucket.isFull] at hfull
      exact ⟨rfl, by simpa using hfull⟩
    · rw [if_neg hfull] at h
      cases h
  · rw [hf] at h
    cases h

/-- A successful `Insert` (with any fuel) preserves the invariant and acts on
`Find` as a map update; the capacity is unchanged. -/
theorem wf_find_insertFuel (fuel : Nat) :
    ∀ {s s' : EHT K V}, WF hash s → ∀ {key : K} {val : V},
      insertFuel hash fuel s key val = some s' →
      WF hash s' ∧ s'.bucketSize = s.bucketSize ∧
      ∀ key' : K, findT hash s' key' =
        if key' = key then some val else findT hash s key' := by
  induction fuel with
  | zero =>
    intro s s' _ key val hs
    cases hs
  | succ fuel ih =>
    intro s s' hW key val hs
    rw [insertFuel] at hs
    dsimp only at hs
    have hslot : lowBits s.globalDepth (hash key) < s.dir.length := by
      rw [hW.dirLen]
      exact lowBits_lt _ _
    have hbidlt : s.dir.getD (indexOf hash s key) 0 < s.buckets.length :=
      hW.dirValid _ hslot
    rcases hbi : Bucket.insertPair
        (s.buckets.getD (s.dir.getD (indexOf hash s key) 0) default) key val
      with _ | b'
    · -- failed bucket insert: split and retry
      rw [hbi] at hs
      obtain ⟨hfnone, hfull0⟩ := insertPair_none hbi
      have hdle : (s.buckets.getD (s.dir.getD (indexOf hash s key) 0) default).depth ≤
          s.globalDepth := hW.depthLe _ hbidlt
      rw [if_neg (by omega)] at hs
      -- the state after the (possible) directory doubling
      by_cases heq : s.globalDepth =
          (s.buckets.getD (s.dir.getD (indexOf hash s key) 0) default).depth
      · rw [if_pos heq] at hs
        obtain ⟨hW₁, hslotpres, hfind₁⟩ := wf_find_double hash hW
        dsimp only at hs
        rw [if_pos (by omega)] at hs
        have hbsize := hW.bsize _ hbidlt
        rcases Nat.eq_zero_or_pos s.bucketSize with hcap0 | hcap1
        · -- capacity zero: the bucket is empty, the source reads the head of
          -- an empty list, and the model yields none
          exfalso
          have hempty : (s.buckets.getD (s.dir.getD (indexOf hash s key) 0) default).list
              = [] := by
            have := hW.caple _ hbidlt
            rw [hcap0] at this
            exact List.length_eq_zero.mp (by omega)
          rw [redistribute, hempty] at hs
          simp at hs
        · obtain ⟨s₂, hred, hW₂, hg₂, hcap₂, hfind₂, _, _⟩ :=
            wf_find_redistribute hash hW₁ hbidlt (by dsimp only; omega)
              (by dsimp only; omega) hcap1
          rw [hred] at hs
          obtain ⟨hWf, hcapf, hfindf⟩ := ih hW₂ hs
          refine ⟨hWf, by rw [hcapf, hcap₂], ?_⟩
          intro key'
          rw [hfindf key', hfind₂ key', hfind₁ key']
      · rw [if_neg heq] at hs
        rw [if_pos (by omega)] at hs
        rcases Nat.eq_zero_or_pos s.bucketSize with hcap0 | hcap1
        · exfalso
          have hempty : (s.buckets.getD (s.dir.getD (indexOf hash s key) 0) default).list
              = [] := by
            have := hW.caple _ hbidlt
            rw [hcap0] at this
            exact List.length_eq_zero.mp (by omega)
          rw [redistribute, hempty] at hs
          simp at hs
        · obtain ⟨s₂, hred, hW₂, hg₂, hcap₂, hfind₂, _, _⟩ :=
            wf_find_redistribute hash hW hbidlt (by omega) (by
              have := hW.bsize _ hbidlt
              omega) hcap1
          rw [hred] at hs
          obtain ⟨hWf, hcapf, hfindf⟩ := ih hW₂ hs
          refine ⟨hWf, by rw [hcapf, hcap₂], ?_⟩
          intro key'
          rw [hfindf key', hfind₂ key']
    · -- the bucket insert succeeded
      rw [hbi] at hs
      dsimp only at hs
      simp only [Option.some.injEq] at hs
      subst hs
      obtain ⟨hWf, hfindf⟩ := wf_find_set_insert hash hW rfl hbi
      exact ⟨hWf, rfl, hfindf⟩

/-- Every reachable table state satisfies the structural invariant. -/
theorem wf_reachT {s : EHT K V} (h : ReachT hash s) : WF hash s := by
  induction h with
  | init cap => exact wf_init hash cap
  | ins _ hstep ih => exact (wf_find_insertFuel hash _ ih hstep).1
  | rem _ ih => exact wf_removeT hash ih _

end WFDef

/-! ### Insert sequences and termination of the split-and-retry loop -/

section Sequences

variable {K V : Type} [DecidableEq K]

/-- Largest element of a list of naturals. -/
def natMaxList (l : List Nat) : Nat := l.foldr max 0

theorem le_natMaxList {l : List Nat} {x : Nat} (h : x ∈ l) : x ≤ natMaxList l := by
  induction l with
  | nil => cases h
  | cons a tl ih =>
    rcases List.mem_cons.mp h with rfl | h
    · exact le_max_left _ _
    · exact le_trans (ih h) (le_max_right _ _)

variable (hash : K → Nat)

/-- A sequence of successful `Insert` calls, each with some fuel. -/
inductive InsertStar : EHT K V → List (K × V) → EHT K V → Prop
  | nil (s : EHT K V) : InsertStar s [] s
  | cons {s s₁ s' : EHT K V} {key : K} {val : V} {ops : List (K × V)}
      (fuel : Nat) :
      insertFuel hash fuel s key val = some s₁ →
      InsertStar s₁ ops s' → InsertStar s ((key, val) :: ops) s'

/-- The value of the last insert for `key` in the sequence `ops`. -/
def lastVal (key : K) (ops : List (K × V)) : Option V :=
  (ops.reverse.find? (keyEq key)).map Prod.snd

theorem findT_insertStar :
    ∀ {ops : List (K × V)} {s s' : EHT K V}, WF hash s →
      InsertStar hash s ops s' →
      WF hash s' ∧ s'.bucketSize = s.bucketSize ∧ ∀ key : K,
        findT hash s' key =
          match lastVal key ops with
          | some v => some v
          | none => findT hash s key := by
  intro ops
  induction ops with
  | nil =>
    intro s s' hW hrun
    cases hrun
    exact ⟨hW, rfl, fun key => rfl⟩
  | cons p rest ih =>
    obtain ⟨k, v⟩ := p
    intro s s' hW hrun
    cases hrun with
    | cons fuel hstep hrun' =>
      obtain ⟨hW₁, hcap₁, hfind₁⟩ := wf_find_insertFuel hash fuel hW hstep
      obtain ⟨hW', hcap', hfind'⟩ := ih hW₁ hrun'
      refine ⟨hW', by rw [hcap', hcap₁], ?_⟩
      intro key
      rw [hfind' key]
      have hlv : lastVal key ((k, v) :: rest) =
          match lastVal key rest with
          | some w => some w
          | none => if k = key then some v else none := by
        rw [lastVal, lastVal, List.reverse_cons, List.find?_append]
        rcases hfr : rest.reverse.find? (keyEq key) with _ | q
        · by_cases hk : k = key
          · simp [List.find?, keyEq, hk]
          · simp [List.find?, keyEq, hk]
        · simp
      rw [hlv]
      rcases hlr : lastVal key rest with _ | w
      · rw [hfind₁ key]
        by_cases hk : key = k
        · rw [if_pos hk, if_pos (by rw [hk])]
        · rw [if_neg hk, if_neg (fun hcon => hk hcon.symm)]
      · rfl

/-- Fuel-indexed progress: once the target bucket's depth exceeds the largest
hash value in play, an insert can no longer fail, and each failed attempt
raises the target's depth by one. -/
theorem insert_progress (hinj : Function.Injective hash) (key : K) (val : V)
    (M : Nat) (hkeyM : hash key ≤ M) :
    ∀ (j : Nat) (s : EHT K V), WF hash s → 1 ≤ s.bucketSize →
      (∀ bid < s.buckets.length,
        ∀ x ∈ (s.buckets.getD bid default).list.map Prod.fst, hash x ≤ M) →
      M + 1 ≤ j +
        (s.buckets.getD (s.dir.getD (indexOf hash s key) 0) default).depth →
      ∃ s', insertFuel hash (j + 1) s key val = some s' := by
  intro j
  induction j with
  | zero =>
    intro s hW hcap hbound hdepth
    rcases hbi : Bucket.insertPair
        (s.buckets.getD (s.dir.getD (indexOf hash s key) 0) default) key val
      with _ | b'
    · exfalso
      obtain ⟨hfnone, hfull⟩ := insertPair_none hbi
      have hslot : indexOf hash s key < s.dir.length := by
        rw [hW.dirLen]
        exact lowBits_lt _ _
      have hbidlt : s.dir.getD (indexOf hash s key) 0 < s.buckets.length :=
        hW.dirValid _ hslot
      obtain ⟨sg, hsg, hslots, hitems⟩ := hW.sig _ hbidlt
      have hbsize := hW.bsize _ hbidlt
      obtain ⟨p, rest, hpl⟩ : ∃ p rest,
          (s.buckets.getD (s.dir.getD (indexOf hash s key) 0) default).list =
            p :: rest := by
        have hlen1 : 1 ≤
            (s.buckets.getD (s.dir.getD (indexOf hash s key) 0) default).list.length := by
          omega
        rcases hl : (s.buckets.getD (s.dir.getD (indexOf hash s key) 0) default).list
          with _ | ⟨p, rest⟩
        · rw [hl] at hlen1
          simp at hlen1
        · exact ⟨p, rest, rfl⟩
      have hpM : hash p.1 ≤ M := hbound _ hbidlt p.1 (by rw [hpl]; simp)
      have hplow : lowBits
          (s.buckets.getD (s.dir.getD (indexOf hash s key) 0) default).depth
          (hash p.1) = sg := hitems p.1 (by rw [hpl]; simp)
      have hklow : lowBits
          (s.buckets.getD (s.dir.getD (indexOf hash s key) 0) default).depth
          (hash key) = sg := by
        have h1 := (hslots (indexOf hash s key) hslot).mp rfl
        have h2 := lowBits_lowBits (hW.depthLe _ hbidlt) (hash key)
        rw [← h2]
        exact h1
      have hMlt : M < 2 ^
          (s.buckets.getD (s.dir.getD (indexOf hash s key) 0) default).depth :=
        lt_of_lt_of_le (Nat.lt_two_pow M)
          (Nat.pow_le_pow_right (by norm_num) (by omega))
      have heqh : hash p.1 = hash key := by
        rw [lowBits] at hplow hklow
        rw [Nat.mod_eq_of_lt (by omega)] at hplow
        rw [Nat.mod_eq_of_lt (by omega)] at hklow
        omega
      have hpk : p.1 = key := hinj heqh
      have hne := List.find?_eq_none.mp hfnone p (by rw [hpl]; simp)
      simp [keyEq, hpk] at hne
    · refine ⟨{ s with
          buckets := s.buckets.set (s.dir.getD (indexOf hash s key) 0) b' }, ?_⟩
      rw [insertFuel]
      dsimp only
      rw [hbi]
  | succ j ih =>
    intro s hW hcap hbound hdepth
    rcases hbi : Bucket.insertPair
        (s.buckets.getD (s.dir.getD (indexOf hash s key) 0) default) key val
      with _ | b'
    · obtain ⟨hfnone, hfull0⟩ := insertPair_none hbi
      have hslot : indexOf hash s key < s.dir.length := by
        rw [hW.dirLen]
        exact lowBits_lt _ _
      have hbidlt : s.dir.getD (indexOf hash s key) 0 < s.buckets.length :=
        hW.dirValid _ hslot
      have hdle := hW.depthLe _ hbidlt
      have hbsize := hW.bsize _ hbidlt
      by_cases heq : s.globalDepth =
          (s.buckets.getD (s.dir.getD (indexOf hash s key) 0) default).depth
      · obtain ⟨hW₁, hslotpres, hfind₁⟩ := wf_find_double hash hW
        obtain ⟨s₂, hred, hW₂, hg₂, hcap₂, hfind₂, htarget, hkeys₂⟩ :=
          wf_find_redistribute hash hW₁ hbidlt (by dsimp only; omega)
            (by dsimp only; omega) hcap
        have hi1 : lowBits (s.globalDepth + 1) (hash key) <
            (s.dir ++ s.dir).length := by
          rw [hW₁.dirLen]
          exact lowBits_lt _ _
        have hslot1 : (s.dir ++ s.dir).getD
            (lowBits (s.globalDepth + 1) (hash key)) 0 =
            s.dir.getD (indexOf hash s key) 0 := hslotpres (hash key)
        have htd : (s₂.buckets.getD (s₂.dir.getD (indexOf hash s₂ key) 0)
            default).depth =
            (s.buckets.getD (s.dir.getD (indexOf hash s key) 0) default).depth
              + 1 := by
          have hidx2 : indexOf hash s₂ key =
              lowBits (s.globalDepth + 1) (hash key) := by
            rw [indexOf, hg₂]
          rw [hidx2]
          exact htarget _ hi1 hslot1
        have hbound₂ : ∀ bid2 < s₂.buckets.length,
            ∀ x ∈ (s₂.buckets.getD bid2 default).list.map Prod.fst,
              hash x ≤ M := by
          intro bid2 hbid2 x hx
          obtain ⟨bid3, hbid3, hx3⟩ := hkeys₂ bid2 hbid2 x hx
          exact hbound bid3 hbid3 x hx3
        obtain ⟨s', hstep⟩ := ih s₂ hW₂ (by rw [hcap₂]; exact hcap) hbound₂
          (by rw [htd]; omega)
        refine ⟨s', ?_⟩
        rw [insertFuel]
        dsimp only
        rw [hbi, if_neg (by omega), if_pos heq]
        dsimp only
        rw [if_pos (by omega), hred]
        exact hstep
      · obtain ⟨s₂, hred, hW₂, hg₂, hcap₂, hfind₂, htarget, hkeys₂⟩ :=
          wf_find_redistribute hash hW hbidlt (by omega) (by omega) hcap
        have htd : (s₂.buckets.getD (s₂.dir.getD (indexOf hash s₂ key) 0)
            default).depth =
            (s.buckets.getD (s.dir.getD (indexOf hash s key) 0) default).depth
              + 1 := by
          have hidx2 : indexOf hash s₂ key = indexOf hash s key := by
            rw [indexOf, hg₂]
            rfl
          rw [hidx2]
          exact htarget _ hslot rfl
        have hbound₂ : ∀ bid2 < s₂.buckets.length,
            ∀ x ∈ (s₂.buckets.getD bid2 default).list.map Prod.fst,
              hash x ≤ M := by
          intro bid2 hbid2 x hx
          obtain ⟨bid3, hbid3, hx3⟩ := hkeys₂ bid2 hbid2 x hx
          exact hbound bid3 hbid3 x hx3
        obtain ⟨s', hstep⟩ := ih s₂ hW₂ (by rw [hcap₂]; exact hcap) hbound₂
          (by rw [htd]; omega)
        refine ⟨s', ?_⟩
        rw [insertFuel]
        dsimp only
        rw [hbi, if_neg (by omega), if_neg heq]
        rw [if_pos (by omega), hred]
        exact hstep
    · refine ⟨{ s with
          buckets := s.buckets.set (s.dir.getD (indexOf hash s key) 0) b' }, ?_⟩
      rw [insertFuel]
      dsimp only
      rw [hbi]

/-- Insert always terminates (with enough fuel) from a well-formed state with
positive capacity, for an injective hash. -/
theorem insert_total (hinj : Function.Injective hash) {s : EHT K V}
    (hW : WF hash s) (hcap : 1 ≤ s.bucketSize) (key : K) (val : V) :
    ∃ fuel s', insertFuel hash fuel s key val = some s' := by
  have hbound : ∀ bid < s.buckets.length,
      ∀ x ∈ (s.buckets.getD bid default).list.map Prod.fst,
        hash x ≤ max (hash key)
          (natMaxList (s.buckets.map
            (fun b => natMaxList (b.list.map (fun p => hash p.1))))) := by
    intro bid hbid x hx
    have h1 : hash x ≤
        natMaxList ((s.buckets.getD bid default).list.map (fun p => hash p.1)) := by
      apply le_natMaxList
      obtain ⟨p, hp, rfl⟩ := List.mem_map.mp hx
      exact List.mem_map.mpr ⟨p, hp, rfl⟩
    have h2 : natMaxList ((s.buckets.getD bid default).list.map
          (fun p => hash p.1)) ≤
        natMaxList (s.buckets.map
          (fun b => natMaxList (b.list.map (fun p => hash p.1)))) := by
      apply le_natMaxList
      apply List.mem_map.mpr
      refine ⟨s.buckets.getD bid default, ?_, rfl⟩
      rw [List.getD_eq_getElem _ _ hbid]
      exact List.getElem_mem hbid
    have h3 := le_max_right (hash key)
      (natMaxList (s.buckets.map
        (fun b => natMaxList (b.list.map (fun p => hash p.1)))))
    omega
  obtain ⟨s', hs'⟩ := insert_progress hash hinj key val _ (le_max_left _ _)
    (max (hash key) (natMaxList (s.buckets.map
      (fun b => natMaxList (b.list.map (fun p => hash p.1))))) + 1)
    s hW hcap hbound (by omega)
  exact ⟨_, s', hs'⟩

/-- Any sequence of inserts can be executed from a well-formed state. -/
theorem insertStar_total (hinj : Function.Injective hash) :
    ∀ (ops : List (K × V)) {s : EHT K V}, WF hash s → 1 ≤ s.bucketSize →
      ∃ s', InsertStar hash s ops s' := by
  intro ops
  induction ops with
  | nil =>
    intro s _ _
    exact ⟨s, InsertStar.nil s⟩
  | cons p rest ih =>
    intro s hW hcap
    obtain ⟨k, v⟩ := p
    obtain ⟨fuel, s₁, hstep⟩ := insert_total hash hinj hW hcap k v
    obtain ⟨hW₁, hcap₁, _⟩ := wf_find_insertFuel hash fuel hW hstep
    obtain ⟨s', hrun⟩ := ih hW₁ (by omega)
    exact ⟨s', InsertStar.cons fuel hstep hrun⟩

end Sequences

namespace Claims

variable {K V : Type} [DecidableEq K]

/-- C3: after every successful hash-table operation, for every directory slot
`i` and every key `k` stored in the bucket referenced by slot `i`, the low
`local_depth` bits of `hash k` equal the low `local_depth` bits of `i`. -/
theorem claim_C3_slot_mask (hash : K → Nat) {s : EHT K V}
    (hreach : ReachT hash s) :
    ∀ i < s.dir.length, ∀ x ∈ (bucketAt s i).list.map Prod.fst,
      lowBits (bucketAt s i).depth (hash x) = lowBits (bucketAt s i).depth i := by
  have hW := wf_reachT hash hreach
  intro i hi x hx
  have hbid := hW.dirValid i hi
  obtain ⟨sg, hsg, hslots, hitems⟩ := hW.sig _ hbid
  rw [bucketAt] at hx ⊢
  rw [hitems x hx]
  exact ((hslots i hi).mp rfl).symm

/-- C8: every bucket with local depth `d` is referenced by exactly
`2 ^ (global_depth - d)` directory slots, and all referencing slots agree on
their low `d` bits. -/
theorem claim_C8_sharing (hash : K → Nat) {s : EHT K V}
    (hreach : ReachT hash s) :
    ∀ bid < s.buckets.length,
      ((Finset.range s.dir.length).filter (fun i => s.dir.getD i 0 = bid)).card =
        2 ^ (s.globalDepth - (s.buckets.getD bid default).depth) ∧
      ∀ i < s.dir.length, ∀ j < s.dir.length,
        s.dir.getD i 0 = bid → s.dir.getD j 0 = bid →
          lowBits (s.buckets.getD bid default).depth i =
            lowBits (s.buckets.getD bid default).depth j := by
  have hW := wf_reachT hash hreach
  intro bid hbid
  obtain ⟨sg, hsg, hslots, hitems⟩ := hW.sig bid hbid
  constructor
  · have hset : (Finset.range s.dir.length).filter (fun i => s.dir.getD i 0 = bid) =
        (Finset.range s.dir.length).filter
          (fun i => lowBits (s.buckets.getD bid default).depth i = sg) := by
      ext i
      simp only [Finset.mem_filter, Finset.mem_range]
      constructor
      · rintro ⟨hi, hv⟩
        exact ⟨hi, (hslots i hi).mp hv⟩
      · rintro ⟨hi, hv⟩
        exact ⟨hi, (hslots i hi).mpr hv⟩
    rw [hset, hW.dirLen, card_slots _ _ _ (hW.depthLe bid hbid) hsg]
  · intro i hi j hj hvi hvj
    rw [(hslots i hi).mp hvi, (hslots j hj).mp hvj]

/-- C5 counterexample: the source constructor (lines 28-32) performs no
validity check, so `bucket_capacity = 0` is accepted: construction yields the
same fully-formed initial state as any positive capacity, refuting the claim
that it fails with `InvalidArgument`. -/
theorem claim_C5_counterexample :
    (initTable 0 : EHT Nat Nat) = ⟨0, 0, 1, [0], [⟨0, 0, []⟩]⟩ ∧
    (initTable 0 : EHT Nat Nat).globalDepth = 0 ∧
    (initTable 0 : EHT Nat Nat).dir.length = 1 ∧
    ((initTable 0 : EHT Nat Nat).buckets.getD 0 default).depth = 0 := by
  refine ⟨rfl, rfl, rfl, rfl⟩

/-- C5 (amended): construction never fails; for every `bucket_capacity`
(zero included) it succeeds with `global_depth = 0`, one bucket of local
depth 0, and a directory of one slot. -/
theorem claim_C5_construction (K V : Type) (cap : Nat) :
    (initTable cap : EHT K V).globalDepth = 0 ∧
    (initTable cap : EHT K V).numBuckets = 1 ∧
    (initTable cap : EHT K V).dir = [0] ∧
    (initTable cap : EHT K V).buckets = [⟨cap, 0, []⟩] :=
  ⟨rfl, rfl, rfl, rfl⟩

theorem claim_C3_slot_mask_witness :
    lowBits (bucketAt (⟨1, 1, 2, [0, 1],
        [⟨1, 1, [(0, 10)]⟩, ⟨1, 1, [(1, 11)]⟩]⟩ : EHT Nat Nat) 1).depth
        ((fun n => n) 1) =
      lowBits (bucketAt (⟨1, 1, 2, [0, 1],
        [⟨1, 1, [(0, 10)]⟩, ⟨1, 1, [(1, 11)]⟩]⟩ : EHT Nat Nat) 1).depth 1 :=
  claim_C3_slot_mask (fun n => n)
    (ReachT.ins (ReachT.ins (ReachT.init 1)
      (show insertFuel (fun n => n) 3 (initTable 1 : EHT Nat Nat) 0 10 =
        some ⟨0, 1, 1, [0], [⟨1, 0, [(0, 10)]⟩]⟩ by decide))
      (show insertFuel (fun n => n) 3
          (⟨0, 1, 1, [0], [⟨1, 0, [(0, 10)]⟩]⟩ : EHT Nat Nat) 1 11 =
        some ⟨1, 1, 2, [0, 1], [⟨1, 1, [(0, 10)]⟩, ⟨1, 1, [(1, 11)]⟩]⟩ by decide))
    1 (by decide) 1 (by decide)

theorem claim_C8_sharing_witness :
    ((Finset.range (⟨1, 1, 2, [0, 1],
        [⟨1, 1, [(0, 10)]⟩, ⟨1, 1, [(1, 11)]⟩]⟩ : EHT Nat Nat).dir.length).filter
      (fun i => (⟨1, 1, 2, [0, 1],
        [⟨1, 1, [(0, 10)]⟩, ⟨1, 1, [(1, 11)]⟩]⟩ : EHT Nat Nat).dir.getD i 0 = 0)).card =
      2 ^ ((⟨1, 1, 2, [0, 1],
        [⟨1, 1, [(0, 10)]⟩, ⟨1, 1, [(1, 11)]⟩]⟩ : EHT Nat Nat).globalDepth -
        ((⟨1, 1, 2, [0, 1],
          [⟨1, 1, [(0, 10)]⟩, ⟨1, 1, [(1, 11)]⟩]⟩ : EHT Nat Nat).buckets.getD 0
            default).depth) :=
  (claim_C8_sharing (fun n => n)
    (ReachT.ins (ReachT.ins (ReachT.init 1)
      (show insertFuel (fun n => n) 3 (initTable 1 : EHT Nat Nat) 0 10 =
        some ⟨0, 1, 1, [0], [⟨1, 0, [(0, 10)]⟩]⟩ by decide))
      (show insertFuel (fun n => n) 3
          (⟨0, 1, 1, [0], [⟨1, 0, [(0, 10)]⟩]⟩ : EHT Nat Nat) 1 11 =
        some ⟨1, 1, 2, [0, 1], [⟨1, 1, [(0, 10)]⟩, ⟨1, 1, [(1, 11)]⟩]⟩ by decide))
    0 (by decide)).1

/-- C2: from a fresh table with positive capacity and an injective hash,
every sequence of Insert calls executes successfully, and afterwards Find
returns the last value inserted for each inserted key; no key is lost during
splits. -/
theorem claim_C2_no_loss (hash : K → Nat) (cap : Nat) (hcap : 1 ≤ cap)
    (hinj : Function.Injective hash) (ops : List (K × V)) :
    (∃ s', InsertStar hash (initTable cap : EHT K V) ops s') ∧
    ∀ s', InsertStar hash (initTable cap : EHT K V) ops s' →
      ∀ key val, lastVal key ops = some val → findT hash s' key = some val := by
  constructor
  · exact insertStar_total hash hinj ops (wf_init hash cap) hcap
  · intro s' hrun key val hlast
    obtain ⟨_, _, hfind⟩ := findT_insertStar hash (wf_init hash cap) hrun
    rw [hfind key, hlast]

theorem claim_C2_no_loss_witness :
    findT (fun n => n)
      (⟨1, 1, 2, [0, 1], [⟨1, 1, [(0, 10)]⟩, ⟨1, 1, [(1, 11)]⟩]⟩ : EHT Nat Nat)
      0 = some 10 :=
  (claim_C2_no_loss (fun n => n) 1 (by decide) (fun a b h => h)
      [(0, 10), (1, 11)]).2 _
    (InsertStar.cons 3
      (show insertFuel (fun n => n) 3 (initTable 1 : EHT Nat Nat) 0 10 =
        some ⟨0, 1, 1, [0], [⟨1, 0, [(0, 10)]⟩]⟩ by decide)
      (InsertStar.cons 3
        (show insertFuel (fun n => n) 3
            (⟨0, 1, 1, [0], [⟨1, 0, [(0, 10)]⟩]⟩ : EHT Nat Nat) 1 11 =
          some ⟨1, 1, 2, [0, 1], [⟨1, 1, [(0, 10)]⟩, ⟨1, 1, [(1, 11)]⟩]⟩
          by decide)
        (InsertStar.nil _)))
    0 10 (by decide)

/-- C6: on every reachable state with positive bucket capacity and an
injective hash, the split-and-retry loop of Insert terminates: some fuel
makes it return successfully. -/
theorem claim_C6_insert_terminates (hash : K → Nat)
    (hinj : Function.Injective hash) {s : EHT K V} (hreach : ReachT hash s)
    (hcap : 1 ≤ s.bucketSize) (key : K) (val : V) :
    ∃ fuel s', insertFuel hash fuel s key val = some s' :=
  insert_total hash hinj (wf_reachT hash hreach) hcap key val

theorem claim_C6_insert_terminates_witness :
    ∃ fuel s',
      insertFuel (fun n => n) fuel (initTable 1 : EHT Nat Nat) 5 7 = some s' :=
  claim_C6_insert_terminates (fun n => n) (fun a b h => h) (ReachT.init 1)
    (by decide) 5 7

end Claims

end EHTable

end Spec2Proof
